import Mathlib

/-!
# Verification of the TQMesh advancing-front / quad-layering core

Shallow embedding of the three source files
`Front.h`, `QuadLayer.h` and `FrontQuadLayering.h` of the TQMesh
repository, together with proofs about the embedded operations.

Machine doubles are modelled as exact rationals `ℚ`; geometric helper
functions that live outside the three source files (`angle`, `is_left`,
`sin`, `cos`, vector norms, the `CONSTANTS.quad_layer_angle()` value)
are passed in as explicit oracle parameters, so every definition stays
computable and the control flow of the embedded code is exactly the
control flow of the source.
-/

set_option autoImplicit false

namespace TQMesh

/-- 2-D vector of exact rationals: the embedding of `Vec2d`. -/
abbrev Vec2 : Type := ℚ × ℚ

/-- Componentwise addition, as used by `Vec2d::operator+`. -/
def vadd (a b : Vec2) : Vec2 := (a.1 + b.1, a.2 + b.2)

/-- Componentwise subtraction, as used by `Vec2d::operator-`. -/
def vsub (a b : Vec2) : Vec2 := (a.1 - b.1, a.2 - b.2)

/-- Scalar multiplication `c * v`, as used by `Vec2d::operator*`. -/
def vsmul (c : ℚ) (v : Vec2) : Vec2 := (c * v.1, c * v.2)

/-!
## QuadLayer::smooth_heights  (QuadLayer.h, lines 121-135)

The per-base height array is embedded as a function `ℕ → ℚ` together
with the explicit array size `n`; `rho i` is the oracle value
`domain.size_function(base_edges_[i]->xy())` of the size function at
the midpoint of base edge `i`.  The C++ loop
`for (size_t i = 1; i < heights_.size()-1; ++i)` updates the array in
place, so the read of `heights_[i-1]` sees the already-updated value.
-/

/-- Embedding of `QuadLayer::smooth_heights`: fold the in-place update
`heights_[i] = MIN(rho, (h1+h2+h3)/3.0)` over `i = 1 .. n-2`. -/
def smooth_heights (rho : ℕ → ℚ) (n : ℕ) (h : ℕ → ℚ) : ℕ → ℚ :=
  (List.range' 1 (n - 2)).foldl
    (fun hs i =>
      Function.update hs i (min (rho i) ((hs (i - 1) + hs i + hs (i + 1)) / 3)))
    h

/-- Indices outside `1 .. k` are never written by the smoothing fold. -/
theorem smooth_heights_go_untouched (rho : ℕ → ℚ) (h : ℕ → ℚ) (k : ℕ) :
    ∀ i : ℕ, (i = 0 ∨ k + 1 ≤ i) →
      (List.range' 1 k).foldl
        (fun hs i =>
          Function.update hs i (min (rho i) ((hs (i - 1) + hs i + hs (i + 1)) / 3)))
        h i = h i := by
  induction k with
  | zero => intro i _; rfl
  | succ k ih =>
      intro i hi
      rw [List.range'_concat, List.foldl_append]
      simp only [List.foldl_cons, List.foldl_nil, one_mul]
      have hne : i ≠ 1 + k := by
        rcases hi with h0 | hk
        · omega
        · omega
      rw [Function.update_noteq hne]
      exact ih i (by omega)

/-- Every index in `1 .. k` satisfies the smoothing update equation,
with the already-updated value at `i - 1`. -/
theorem smooth_heights_go_eq (rho : ℕ → ℚ) (h : ℕ → ℚ) (k : ℕ) :
    ∀ i : ℕ, 1 ≤ i → i ≤ k →
      (List.range' 1 k).foldl
        (fun hs i =>
          Function.update hs i (min (rho i) ((hs (i - 1) + hs i + hs (i + 1)) / 3)))
        h i =
      min (rho i)
        (((List.range' 1 k).foldl
            (fun hs i =>
              Function.update hs i
                (min (rho i) ((hs (i - 1) + hs i + hs (i + 1)) / 3)))
            h (i - 1) + h i + h (i + 1)) / 3) := by
  induction k with
  | zero => intro i h1 h0; omega
  | succ k ih =>
      intro i h1 hik
      rw [List.range'_concat, List.foldl_append]
      simp only [List.foldl_cons, List.foldl_nil, one_mul]
      set F := (List.range' 1 k).foldl
        (fun hs i =>
          Function.update hs i (min (rho i) ((hs (i - 1) + hs i + hs (i + 1)) / 3)))
        h with hF
      by_cases hlast : i = 1 + k
      · subst hlast
        rw [Function.update_same]
        have hprev : (1 + k) - 1 ≠ 1 + k := by omega
        rw [Function.update_noteq hprev]
        have hcur : F (1 + k) = h (1 + k) :=
          smooth_heights_go_untouched rho h k (1 + k) (Or.inr (by omega))
        have hnext : F (1 + k + 1) = h (1 + k + 1) :=
          smooth_heights_go_untouched rho h k (1 + k + 1) (Or.inr (by omega))
        rw [hcur, hnext]
      · have hik' : i ≤ k := by omega
        have hne : i ≠ 1 + k := hlast
        have hne' : i - 1 ≠ 1 + k := by omega
        rw [Function.update_noteq hne, Function.update_noteq hne']
        exact ih i h1 hik'

/-- C7: `smooth_heights` updates `heights[i]` for `i` from `1` to `n-2`
only, setting each to the minimum of the size function at the base
midpoint and the three-point average `(h_{i-1} + h_i + h_{i+1}) / 3`
(the left neighbour being the already-smoothed value), and leaves
`heights[0]` and `heights[n-1]` untouched. -/
theorem smooth_heights_spec (rho : ℕ → ℚ) (n : ℕ) (h : ℕ → ℚ) (hn : 1 ≤ n) :
    smooth_heights rho n h 0 = h 0 ∧
    smooth_heights rho n h (n - 1) = h (n - 1) ∧
    (∀ i : ℕ, 1 ≤ i → i ≤ n - 2 →
      smooth_heights rho n h i =
        min (rho i) ((smooth_heights rho n h (i - 1) + h i + h (i + 1)) / 3)) ∧
    (∀ i : ℕ, i = 0 ∨ n - 1 ≤ i → smooth_heights rho n h i = h i) := by
  refine ⟨?_, ?_, ?_, ?_⟩
  · exact smooth_heights_go_untouched rho h (n - 2) 0 (Or.inl rfl)
  · exact smooth_heights_go_untouched rho h (n - 2) (n - 1) (by omega)
  · intro i h1 h2
    exact smooth_heights_go_eq rho h (n - 2) i h1 h2
  · intro i hi
    exact smooth_heights_go_untouched rho h (n - 2) i (by omega)

/-- Concrete witness for `smooth_heights_spec` at `n = 4` with
heights `10, 10, 10, 10` and size function values `i + 1`. -/
theorem smooth_heights_spec_witness :
    1 ≤ 4 ∧
    (smooth_heights (fun i => (i : ℚ) + 1) 4 (fun _ => 10) 0 = 10 ∧
     smooth_heights (fun i => (i : ℚ) + 1) 4 (fun _ => 10) 3 = 10 ∧
     (∀ i : ℕ, 1 ≤ i → i ≤ 2 →
       smooth_heights (fun i => (i : ℚ) + 1) 4 (fun _ => 10) i =
         min ((i : ℚ) + 1)
           ((smooth_heights (fun i => (i : ℚ) + 1) 4 (fun _ => 10) (i - 1)
             + 10 + 10) / 3)) ∧
     (∀ i : ℕ, i = 0 ∨ 3 ≤ i →
       smooth_heights (fun i => (i : ℚ) + 1) 4 (fun _ => 10) i = 10)) :=
  ⟨by decide, smooth_heights_spec (fun i => (i : ℚ) + 1) 4 (fun _ => 10) (by decide)⟩

/-!
## FrontQuadLayering::generate_elements  (FrontQuadLayering.h, lines 68-102)

The driver's layer loop.  `generate_quad_layer` is a stateful collaborator
(it moves `xy_start_` / `xy_end_` between layers); its outcome is embedded
as an oracle `gql : ℕ → ℚ → Bool` giving the boolean result of the `k`-th
call when invoked with height `h`.  The embedding returns the final
`success` flag together with the list of heights actually passed to
`generate_quad_layer`, in call order.
-/

/-- Embedding of the layer loop of `generate_elements`:
`for (i_layer = 0; i_layer < n_layers; ++i_layer) { success =
generate_quad_layer(height); if (!success) break; height *= growth_rate; }`.
Arguments: call index `k`, remaining layers, current height. -/
def quad_layer_loop (gql : ℕ → ℚ → Bool) (growth : ℚ) :
    ℕ → ℕ → ℚ → Bool × List ℚ
  | _, 0, _ => (true, [])
  | k, rem + 1, h =>
      if gql k h then
        let r := quad_layer_loop gql growth (k + 1) rem (h * growth)
        (r.1, h :: r.2)
      else
        (false, [h])

/-- Embedding of `FrontQuadLayering::generate_elements`: fail fast when
the mesh has no boundary edges, otherwise run the layer loop starting
from `first_height_`. -/
def generate_elements (nBdry : ℕ) (gql : ℕ → ℚ → Bool) (nLayers : ℕ)
    (firstHeight growth : ℚ) : Bool × List ℚ :=
  if nBdry < 1 then (false, [])
  else quad_layer_loop gql growth 0 nLayers firstHeight

/-- Full characterisation of the layer loop, by induction on the number
of remaining layers. -/
theorem quad_layer_loop_spec (gql : ℕ → ℚ → Bool) (g : ℚ) :
    ∀ (rem k : ℕ) (h : ℚ),
      ((quad_layer_loop gql g k rem h).1 = true ↔
        ∀ j : ℕ, j < rem → gql (k + j) (h * g ^ j) = true) ∧
      (quad_layer_loop gql g k rem h).2.length ≤ rem ∧
      ((quad_layer_loop gql g k rem h).1 = true →
        (quad_layer_loop gql g k rem h).2.length = rem) ∧
      (∀ j : ℕ, j < (quad_layer_loop gql g k rem h).2.length →
        (quad_layer_loop gql g k rem h).2.get? j = some (h * g ^ j)) ∧
      (∀ j : ℕ, j + 1 < (quad_layer_loop gql g k rem h).2.length →
        gql (k + j) (h * g ^ j) = true) ∧
      ((quad_layer_loop gql g k rem h).2.length < rem →
        0 < (quad_layer_loop gql g k rem h).2.length ∧
        gql (k + ((quad_layer_loop gql g k rem h).2.length - 1))
          (h * g ^ ((quad_layer_loop gql g k rem h).2.length - 1)) = false) := by
  intro rem
  induction rem with
  | zero =>
      intro k h
      refine ⟨?_, ?_, ?_, ?_, ?_, ?_⟩ <;>
        simp [quad_layer_loop]
  | succ rem ih =>
      intro k h
      by_cases hk : gql k h = true
      · have hrec := ih (k + 1) (h * g)
        simp only [quad_layer_loop, hk, if_true]
        set r := quad_layer_loop gql g (k + 1) rem (h * g) with hr
        obtain ⟨ha, hlen, hfull, hget, htrue, hstop⟩ := hrec
        refine ⟨?_, ?_, ?_, ?_, ?_, ?_⟩
        · constructor
          · intro h1 j hj
            match j with
            | 0 => simpa using hk
            | j + 1 =>
                have := (ha.mp h1) j (by omega)
                have harith : h * g * g ^ j = h * g ^ (j + 1) := by ring
                rw [← harith, show k + (j + 1) = k + 1 + j from by omega]
                exact this
          · intro hall
            apply ha.mpr
            intro j hj
            have := hall (j + 1) (by omega)
            have harith : h * g ^ (j + 1) = h * g * g ^ j := by ring
            rw [show k + 1 + j = k + (j + 1) from by omega, ← harith]
            exact this
        · simpa using hlen
        · intro h1
          simp only [List.length_cons]
          have := hfull h1
          omega
        · intro j hj
          match j with
          | 0 => simp
          | j + 1 =>
              simp only [List.length_cons] at hj
              have := hget j (by omega)
              simp only [List.get?_cons_succ]
              rw [this]
              congr 1
              ring
        · intro j hj
          match j with
          | 0 => simpa using hk
          | j + 1 =>
              simp only [List.length_cons] at hj
              have := htrue j (by omega)
              rw [show k + (j + 1) = k + 1 + j from by omega,
                  show h * g ^ (j + 1) = h * g * g ^ j from by ring]
              exact this
        · intro hlt
          simp only [List.length_cons] at hlt ⊢
          have hlt' : r.2.length < rem := by omega
          obtain ⟨hpos, hfalse⟩ := hstop hlt'
          refine ⟨by omega, ?_⟩
          have hidx : r.2.length + 1 - 1 = (r.2.length - 1) + 1 := by omega
          rw [hidx, show k + ((r.2.length - 1) + 1) = k + 1 + (r.2.length - 1) from by omega,
              show h * g ^ ((r.2.length - 1) + 1) = h * g * g ^ (r.2.length - 1) from by ring]
          exact hfalse
      · have hk' : gql k h = false := by
          cases hgk : gql k h
          · rfl
          · exact absurd hgk hk
        simp only [quad_layer_loop, hk', Bool.false_eq_true, if_false]
        refine ⟨?_, ?_, ?_, ?_, ?_, ?_⟩
        · constructor
          · intro hfalse; cases hfalse
          · intro hall
            have := hall 0 (by omega)
            simp at this
            exact absurd this hk
        · simp
        · intro hfalse; cases hfalse
        · intro j hj
          simp only [List.length_cons, List.length_nil] at hj
          match j with
          | 0 => simp
        · intro j hj
          simp only [List.length_cons, List.length_nil] at hj
          omega
        · intro _
          refine ⟨by simp, ?_⟩
          simpa using hk

/-- C8: `generate_elements` returns `false` immediately (no layer calls)
when the mesh has no boundary edges; otherwise it calls
`generate_quad_layer` once per layer `k = 0 .. n_layers-1` with the
geometric heights `first_height * growth_rate ^ k`, stops at the first
call that returns `false`, and reports the outcome as a boolean. -/
theorem generate_elements_spec (nBdry : ℕ) (gql : ℕ → ℚ → Bool)
    (n : ℕ) (h0 g : ℚ) :
    (nBdry < 1 → generate_elements nBdry gql n h0 g = (false, [])) ∧
    (1 ≤ nBdry →
      ((generate_elements nBdry gql n h0 g).1 = true ↔
        ∀ k : ℕ, k < n → gql k (h0 * g ^ k) = true) ∧
      (generate_elements nBdry gql n h0 g).2.length ≤ n ∧
      ((generate_elements nBdry gql n h0 g).1 = true →
        (generate_elements nBdry gql n h0 g).2.length = n) ∧
      (∀ j : ℕ, j < (generate_elements nBdry gql n h0 g).2.length →
        (generate_elements nBdry gql n h0 g).2.get? j = some (h0 * g ^ j)) ∧
      (∀ j : ℕ, j + 1 < (generate_elements nBdry gql n h0 g).2.length →
        gql j (h0 * g ^ j) = true) ∧
      ((generate_elements nBdry gql n h0 g).2.length < n →
        0 < (generate_elements nBdry gql n h0 g).2.length ∧
        gql ((generate_elements nBdry gql n h0 g).2.length - 1)
          (h0 * g ^ ((generate_elements nBdry gql n h0 g).2.length - 1)) = false)) := by
  constructor
  · intro hb
    simp [generate_elements, hb]
  · intro hb
    have hb' : ¬ nBdry < 1 := by omega
    simp only [generate_elements, hb', if_false]
    have := quad_layer_loop_spec gql g n 0 h0
    simpa using this

/-- Concrete witness for `generate_elements_spec`: one boundary edge,
three layers, the oracle succeeding on every call. -/
theorem generate_elements_spec_witness :
    (¬ (1 : ℕ) < 1) ∧ 1 ≤ 1 ∧
    ((generate_elements 1 (fun _ _ => true) 3 2 (3 / 2)).1 = true ↔
      ∀ k : ℕ, k < 3 → (fun (_ : ℕ) (_ : ℚ) => true) k (2 * (3 / 2 : ℚ) ^ k) = true) :=
  ⟨by decide, by decide,
    ((generate_elements_spec 1 (fun _ _ => true) 3 2 (3 / 2)).2 (by decide)).1⟩

/-!
## The final anchor walk of generate_quad_layer
   (FrontQuadLayering.h, lines 189-215)

```
int i = 0; int n = quad_layer.n_bases();
do {
  v_start_in = quad_layer.p1()[i];
  if ( is_closed ) v_end_in = v_start_in;
  else             v_end_in = quad_layer.p2()[MOD(i-1,n)];
  ++i;
} while ( !(v_start_in->on_front()) && !(v_end_in->on_front()) );
if ( !v_start_in || !v_end_in ) return false;
xy_start_ = v_start_in->xy(); xy_end_ = v_end_in->xy(); return true;
```

Vertices are embedded as identifiers `ℕ` with oracles `onFront` and
`xy`; the arrays `proj_v1_` / `proj_v2_` become lists of
`Option ℕ` (a `none` entry is a nullptr).  Reading `p1()[i]` past the
end of the vector, or dereferencing a nullptr in the loop condition,
is undefined behaviour in the source; the embedding makes those runs
explicit as `.crash`.  The `&&` of the loop condition short-circuits:
`v_end_in` is only dereferenced when `v_start_in` is off the front.
-/

/-- Observable outcome of the tail of `generate_quad_layer`. -/
inductive WalkOut where
  /-- out-of-bounds vector access or nullptr dereference (UB in the source) -/
  | crash : WalkOut
  /-- the post-loop null check fires: `return false` -/
  | reject : WalkOut
  /-- `xy_start_`/`xy_end_` are assigned and the function returns `true` -/
  | accept (xyStart xyEnd : Vec2) : WalkOut
deriving DecidableEq

/-- The do-while loop of the anchor walk, walking down the suffix of
`proj_v1_` that starts at index `i` (so `p1[i]` is the head of `rest`).
`p2` is the whole `proj_v2_` array, indexed by `MOD(i-1,n)`. -/
def anchor_walk_aux (onFront : ℕ → Bool) (xy : ℕ → Vec2)
    (p2 : List (Option ℕ)) (isClosed : Bool) :
    List (Option ℕ) → ℕ → WalkOut
  | [], _ => .crash
  | vsOpt :: rest, i =>
      match (if isClosed then some vsOpt
             else p2.get? ((i + p2.length - 1) % p2.length)) with
      | none => .crash
      | some veOpt =>
          match vsOpt with
          | none => .crash
          | some vs =>
              if onFront vs then
                match veOpt with
                | none => .reject
                | some ve => .accept (xy vs) (xy ve)
              else
                match veOpt with
                | none => .crash
                | some ve =>
                    if onFront ve then .accept (xy vs) (xy ve)
                    else anchor_walk_aux onFront xy p2 isClosed rest (i + 1)

/-- Embedding of the complete anchor-walk tail of
`generate_quad_layer`, starting at `i = 0` on the full `proj_v1_`. -/
def anchor_walk (onFront : ℕ → Bool) (xy : ℕ → Vec2)
    (p1 p2 : List (Option ℕ)) (isClosed : Bool) : WalkOut :=
  anchor_walk_aux onFront xy p2 isClosed p1 0

/-- C9 evidence: when no projected vertex qualifies as an anchor the
walk is undefined behaviour, not `return false`.  First conjunct: a
one-base open layer whose two projected vertices exist but are not on
the front; the loop increments `i` to `1 = n` and reads `p1()[1]` out
of bounds.  Second conjunct: a layer whose first projected vertex was
never committed (`proj_v1_[0] == nullptr`); the loop condition
dereferences the nullptr.  In both cases the outcome is `.crash`, never
the `.reject` that the specification's LayerRejection demands. -/
theorem anchor_walk_no_anchor_crash :
    anchor_walk (fun _ => false) (fun v => ((v : ℚ), 0))
        [some 0] [some 1] false = WalkOut.crash ∧
    anchor_walk (fun _ => false) (fun v => ((v : ℚ), 0))
        [none] [some 1] false = WalkOut.crash := by
  constructor <;> rfl

/-- The vertex the loop assigns to `v_end_in` at index `j`:
`v_start_in` itself when the layer is closed, else
`proj_v2[MOD(j-1,n)]`. -/
def anchor_v_end (vsF vpF : ℕ → ℕ) (isClosed : Bool) (n j : ℕ) : ℕ :=
  if isClosed then vsF j else vpF ((j + n - 1) % n)

/-- One non-stopping step of the anchor walk on fully-committed arrays. -/
theorem anchor_walk_aux_step (onFront : ℕ → Bool) (xy : ℕ → Vec2)
    (vsF vpF : ℕ → ℕ) (isClosed : Bool) (n : ℕ) (m : ℕ) (hm : m < n)
    (hvs : onFront (vsF m) = false)
    (hve : onFront (anchor_v_end vsF vpF isClosed n m) = false) :
    anchor_walk_aux onFront xy ((List.range n).map (fun j => some (vpF j)))
        isClosed (((List.range n).map (fun j => some (vsF j))).drop m) m =
    anchor_walk_aux onFront xy ((List.range n).map (fun j => some (vpF j)))
        isClosed (((List.range n).map (fun j => some (vsF j))).drop (m + 1)) (m + 1) := by
  have hdrop : (((List.range n).map (fun j => some (vsF j))).drop m) =
      some (vsF m) :: (((List.range n).map (fun j => some (vsF j))).drop (m + 1)) := by
    have hm' : m < ((List.range n).map (fun j => some (vsF j))).length := by
      simpa using hm
    rw [List.drop_eq_getElem_cons hm']
    simp
  have hlen : ((List.range n).map (fun j => some (vpF j))).length = n := by simp
  have hidx : (m + n - 1) % n < n := Nat.mod_lt _ (by omega)
  have hget : ((List.range n).map (fun j => some (vpF j))).get?
      ((m + ((List.range n).map (fun j => some (vpF j))).length - 1) %
        ((List.range n).map (fun j => some (vpF j))).length) =
      some (some (vpF ((m + n - 1) % n))) := by
    rw [hlen, List.get?_map, List.get?_range hidx]
    rfl
  rw [hdrop]
  cases isClosed with
  | true =>
      simp only [anchor_v_end, if_true] at hve
      simp only [anchor_walk_aux, if_true]
      rw [hvs]
      simp
  | false =>
      simp only [anchor_v_end, Bool.false_eq_true, if_false] at hve
      simp only [anchor_walk_aux, Bool.false_eq_true, if_false]
      rw [hget]
      simp [hvs, hve]

/-- The stopping step of the anchor walk on fully-committed arrays:
as soon as `v_start_in` or `v_end_in` is on the front, the walk stops
and returns the two coordinates. -/
theorem anchor_walk_aux_stop (onFront : ℕ → Bool) (xy : ℕ → Vec2)
    (vsF vpF : ℕ → ℕ) (isClosed : Bool) (n : ℕ) (m : ℕ) (hm : m < n)
    (hstop : onFront (vsF m) = true ∨
      onFront (anchor_v_end vsF vpF isClosed n m) = true) :
    anchor_walk_aux onFront xy ((List.range n).map (fun j => some (vpF j)))
        isClosed (((List.range n).map (fun j => some (vsF j))).drop m) m =
    WalkOut.accept (xy (vsF m)) (xy (anchor_v_end vsF vpF isClosed n m)) := by
  have hdrop : (((List.range n).map (fun j => some (vsF j))).drop m) =
      some (vsF m) :: (((List.range n).map (fun j => some (vsF j))).drop (m + 1)) := by
    have hm' : m < ((List.range n).map (fun j => some (vsF j))).length := by
      simpa using hm
    rw [List.drop_eq_getElem_cons hm']
    simp
  have hlen : ((List.range n).map (fun j => some (vpF j))).length = n := by simp
  have hidx : (m + n - 1) % n < n := Nat.mod_lt _ (by omega)
  have hget : ((List.range n).map (fun j => some (vpF j))).get?
      ((m + ((List.range n).map (fun j => some (vpF j))).length - 1) %
        ((List.range n).map (fun j => some (vpF j))).length) =
      some (some (vpF ((m + n - 1) % n))) := by
    rw [hlen, List.get?_map, List.get?_range hidx]
    rfl
  rw [hdrop]
  cases isClosed with
  | true =>
      simp only [anchor_v_end, if_true] at hstop ⊢
      have hA : onFront (vsF m) = true := by
        rcases hstop with hA | hA <;> exact hA
      simp only [anchor_walk_aux, if_true]
      rw [hA]
      simp
  | false =>
      simp only [anchor_v_end, Bool.false_eq_true, if_false] at hstop ⊢
      simp only [anchor_walk_aux, Bool.false_eq_true, if_false]
      rw [hget]
      rcases hstop with hA | hB
      · simp [hA]
      · cases hof : onFront (vsF m) with
        | true => simp [hof]
        | false => simp [hof, hB]

/-- C1 (amended): on arrays whose entries are all committed
(non-null), the anchor walk stops at the FIRST index `i` at which
`v_start_in = proj_v1[i]` is on the front OR
`v_end_in` (`v_start_in` when closed, else `proj_v2[MOD(i-1,n)]`)
is on the front; it then assigns `xy_start`/`xy_end` from those two
vertices and returns `true`. -/
theorem anchor_walk_first_on_front (onFront : ℕ → Bool) (xy : ℕ → Vec2)
    (vsF vpF : ℕ → ℕ) (isClosed : Bool) (n : ℕ) (i : ℕ) (hin : i < n)
    (hstop : onFront (vsF i) = true ∨
      onFront (anchor_v_end vsF vpF isClosed n i) = true)
    (hleast : ∀ j : ℕ, j < i → onFront (vsF j) = false ∧
      onFront (anchor_v_end vsF vpF isClosed n j) = false) :
    anchor_walk onFront xy ((List.range n).map (fun j => some (vsF j)))
        ((List.range n).map (fun j => some (vpF j))) isClosed =
    WalkOut.accept (xy (vsF i)) (xy (anchor_v_end vsF vpF isClosed n i)) := by
  have key : ∀ d m : ℕ, m + d = i →
      anchor_walk_aux onFront xy ((List.range n).map (fun j => some (vpF j)))
        isClosed (((List.range n).map (fun j => some (vsF j))).drop m) m =
      WalkOut.accept (xy (vsF i)) (xy (anchor_v_end vsF vpF isClosed n i)) := by
    intro d
    induction d with
    | zero =>
        intro m hm
        have : m = i := by omega
        rw [this]
        exact anchor_walk_aux_stop onFront xy vsF vpF isClosed n i hin hstop
    | succ d ih =>
        intro m hm
        have hmi : m < i := by omega
        obtain ⟨hvs, hve⟩ := hleast m hmi
        rw [anchor_walk_aux_step onFront xy vsF vpF isClosed n m (by omega) hvs hve]
        exact ih (m + 1) (by omega)
  have h0 := key i 0 (by omega)
  simpa [anchor_walk] using h0

/-- Concrete witness for `anchor_walk_first_on_front`: an open layer
with two bases; at index 0 neither anchor is on the front, at index 1
`proj_v1[1]` is.  The walk returns the coordinates of vertex `1` and
of `proj_v2[0] = 10`. -/
theorem anchor_walk_first_on_front_witness :
    (1 < 2 ∧ ((fun v => decide (v = 1)) : ℕ → Bool) (1 + 0) = true ∧
      (∀ j : ℕ, j < 1 → ((fun v => decide (v = 1)) : ℕ → Bool) (0 + j) = false ∧
        ((fun v => decide (v = 1)) : ℕ → Bool)
          (anchor_v_end (fun j => 0 + j) (fun j => 10 + j) false 2 j) = false)) ∧
    anchor_walk ((fun v => decide (v = 1)) : ℕ → Bool) (fun v => ((v : ℚ), (v : ℚ)))
        ((List.range 2).map (fun j => some (0 + j)))
        ((List.range 2).map (fun j => some (10 + j))) false =
      WalkOut.accept (1, 1) (anchor_v_end (fun j => 0 + j) (fun j => 10 + j) false 2 1,
        (anchor_v_end (fun j => 0 + j) (fun j => 10 + j) false 2 1 : ℚ)) :=
  ⟨⟨by decide, by decide, by decide⟩,
    anchor_walk_first_on_front (fun v => decide (v = 1)) (fun v => ((v : ℚ), (v : ℚ)))
      (fun j => 0 + j) (fun j => 10 + j) false 2 1 (by decide)
      (Or.inl (by decide)) (by decide)⟩

/-- C1 counterexample: the walk does NOT wait for an index at which
BOTH anchors are on the front.  Open layer, two bases, `proj_v1[0]` on
the front but its partner `proj_v2[MOD(-1,2)] = proj_v2[1]` off the
front (while index 1 would satisfy both): the code stops at index 0
and returns the coordinates of a pair whose end anchor is off the
front. -/
theorem anchor_walk_not_both_on_front :
    anchor_walk (fun v => decide (v = 0 ∨ v = 1 ∨ v = 10)) (fun v => ((v : ℚ), (v : ℚ)))
        [some 0, some 1] [some 10, some 11] false =
      WalkOut.accept (0, 0) (11, 11) ∧
    (fun v => decide (v = 0 ∨ v = 1 ∨ v = 10)) 11 = false ∧
    (fun v => decide (v = 0 ∨ v = 1 ∨ v = 10)) 1 = true ∧
    (fun v => decide (v = 0 ∨ v = 1 ∨ v = 10)) 10 = true := by
  refine ⟨by rfl, by decide, by decide, by decide⟩

/-!
## QuadLayer::QuadLayer  (QuadLayer.h, lines 54-76)

```
Edge* e_cur = e_start_;
do {
  ASSERT( e_cur, "..." );
  add_quadlayer_edge( *e_cur );
  e_cur = e_cur->get_next_edge();
} while ( e_cur != e_end_ );
add_quadlayer_edge( *e_end_ );
```

Edges are identifiers `ℕ`; the Front's next-edge links become
`next : ℕ → Option ℕ` (`none` is a null pointer).  The do-while loop is
embedded with a fuel parameter: `none` as a result means the loop has
not terminated within `fuel` iterations, so termination of the source
loop is exactly `∃ fuel, result ≠ none`.
-/

/-- Result of the constructor's edge walk. -/
inductive CtorOut where
  /-- `ASSERT( e_cur, ... )` fired: the walk hit a null next link -/
  | fatal : CtorOut
  /-- the accumulated base edges, in walk order -/
  | edges (l : List ℕ) : CtorOut
deriving DecidableEq

/-- The do-while loop of the `QuadLayer` constructor.  The loop body
first asserts `e_cur` non-null, accumulates it, steps to
`e_cur->get_next_edge()`, and repeats while the new `e_cur` differs
from `e_end_`. -/
def ql_ctor_walk (next : ℕ → Option ℕ) (eEnd : ℕ) :
    Option ℕ → ℕ → Option CtorOut
  | none, _ => some .fatal
  | some _, 0 => none
  | some cur, fuel + 1 =>
      if next cur = some eEnd then some (.edges [cur])
      else
        match ql_ctor_walk next eEnd (next cur) fuel with
        | some (.edges l) => some (.edges (cur :: l))
        | r => r

/-- Embedding of the edge accumulation of `QuadLayer::QuadLayer`: the
do-while walk from `e_start`, followed by `add_quadlayer_edge(*e_end_)`
for the ending edge. -/
def quadlayer_ctor_edges (next : ℕ → Option ℕ) (eStart eEnd : ℕ)
    (fuel : ℕ) : Option CtorOut :=
  match ql_ctor_walk next eEnd (some eStart) fuel with
  | some (.edges l) => some (.edges (l ++ [eEnd]))
  | r => r

/-- `walkChain next eEnd cs` holds iff `cs` is exactly the chain of
edges the do-while visits: consecutive next links, never passing
through `e_end`, with the next link of the last element being
`e_end`. -/
def walkChain (next : ℕ → Option ℕ) (eEnd : ℕ) : List ℕ → Bool
  | [] => false
  | [c] => decide (next c = some eEnd)
  | c :: c2 :: rest =>
      decide (next c = some c2) && decide (c2 ≠ eEnd) &&
        walkChain next eEnd (c2 :: rest)

/-- `nullChain next eEnd cs` holds iff following the links from the
head of `cs` reaches a null next pointer (at the last element of `cs`)
without ever stepping onto `e_end`. -/
def nullChain (next : ℕ → Option ℕ) (eEnd : ℕ) : List ℕ → Bool
  | [] => false
  | [c] => decide (next c = none)
  | c :: c2 :: rest =>
      decide (next c = some c2) && decide (c2 ≠ eEnd) &&
        nullChain next eEnd (c2 :: rest)

/-- `chainFrom next s k` is the edge reached after `k` next-steps from
`s` (`none` once a null link has been passed). -/
def chainFrom (next : ℕ → Option ℕ) (s : ℕ) : ℕ → Option ℕ
  | 0 => some s
  | k + 1 => (chainFrom next s k).bind next

theorem chainFrom_shift (next : ℕ → Option ℕ) (s c : ℕ)
    (hs : next s = some c) :
    ∀ k : ℕ, chainFrom next s (k + 1) = chainFrom next c k := by
  intro k
  induction k with
  | zero => simp [chainFrom, hs]
  | succ k ih =>
      have hstep : chainFrom next s (k + 1 + 1) =
          (chainFrom next s (k + 1)).bind next := rfl
      rw [hstep, ih]
      rfl

/-- Helper: a `walkChain` makes the do-while terminate with exactly
that list of accumulated edges. -/
theorem ql_ctor_walk_of_walkChain (next : ℕ → Option ℕ) (eEnd : ℕ) :
    ∀ (cs : List ℕ) (c : ℕ) (fuel : ℕ),
      walkChain next eEnd (c :: cs) = true → (c :: cs).length ≤ fuel →
      ql_ctor_walk next eEnd (some c) fuel = some (.edges (c :: cs)) := by
  intro cs
  induction cs with
  | nil =>
      intro c fuel hch hf
      have hnext : next c = some eEnd := by
        simpa [walkChain] using hch
      match fuel, hf with
      | f + 1, _ =>
          simp [ql_ctor_walk, hnext]
  | cons c2 rest ih =>
      intro c fuel hch hf
      simp only [walkChain, Bool.and_eq_true, decide_eq_true_eq] at hch
      obtain ⟨⟨h1, h2⟩, h3⟩ := hch
      match fuel, hf with
      | f + 1, hf =>
          have hflen : (c2 :: rest).length ≤ f := by
            simpa using Nat.lt_succ_iff.mp (by simpa using hf)
          have hrec := ih c2 f h3 hflen
          simp [ql_ctor_walk, h1, h2, hrec]

/-- Helper: a `nullChain` makes the do-while abort fatally via the
`ASSERT` on a null `e_cur`. -/
theorem ql_ctor_walk_of_nullChain (next : ℕ → Option ℕ) (eEnd : ℕ) :
    ∀ (cs : List ℕ) (c : ℕ) (fuel : ℕ),
      nullChain next eEnd (c :: cs) = true → (c :: cs).length ≤ fuel →
      ql_ctor_walk next eEnd (some c) fuel = some .fatal := by
  intro cs
  induction cs with
  | nil =>
      intro c fuel hch hf
      have hnext : next c = none := by
        simpa [nullChain] using hch
      match fuel, hf with
      | f + 1, _ =>
          simp [ql_ctor_walk, hnext]
  | cons c2 rest ih =>
      intro c fuel hch hf
      simp only [nullChain, Bool.and_eq_true, decide_eq_true_eq] at hch
      obtain ⟨⟨h1, h2⟩, h3⟩ := hch
      match fuel, hf with
      | f + 1, hf =>
          have hflen : (c2 :: rest).length ≤ f := by
            simpa using Nat.lt_succ_iff.mp (by simpa using hf)
          have hrec := ih c2 f h3 hflen
          simp [ql_ctor_walk, h1, h2, hrec]

/-- Helper: when the next links from `s` go on forever without ever
pointing at `e_end`, the do-while runs out of any amount of fuel:
the constructor does not terminate. -/
theorem ql_ctor_walk_nonterm (next : ℕ → Option ℕ) (eEnd : ℕ) :
    ∀ (fuel : ℕ) (s : ℕ),
      (∀ k : ℕ, ∃ c : ℕ, chainFrom next s k = some c ∧ next c ≠ some eEnd) →
      ql_ctor_walk next eEnd (some s) fuel = none := by
  intro fuel
  induction fuel with
  | zero => intro s _; rfl
  | succ fuel ih =>
      intro s hs
      obtain ⟨c0, hc0, hc0ne⟩ := hs 0
      have hc0s : s = c0 := by
        simpa [chainFrom] using hc0
      have hsne : next s ≠ some eEnd := by
        rw [hc0s]; exact hc0ne
      obtain ⟨c1, hc1, hc1ne⟩ := hs 1
      have hnext : next s = some c1 := by
        simpa [chainFrom] using hc1
      have hc1end : c1 ≠ eEnd := by
        intro hcontra
        apply hsne
        rw [hnext, hcontra]
      have hshift : ∀ k : ℕ, ∃ c : ℕ,
          chainFrom next c1 k = some c ∧ next c ≠ some eEnd := by
        intro k
        obtain ⟨c, hc, hcne⟩ := hs (k + 1)
        refine ⟨c, ?_, hcne⟩
        rw [← chainFrom_shift next s c1 hnext k]
        exact hc
      have hrec := ih c1 hshift
      simp [ql_ctor_walk, hnext, hc1end, hrec]

/-- C3 (amended): the constructor walk accumulates exactly the edges
from `e_start` through `e_end`, in order, never wrapping past `e_end`,
whenever `e_end` is the next link of the end of a finite chain from
`e_start`; it aborts fatally (`ASSERT`, StructuralAssertion) when the
walk runs onto a null next link before seeing `e_end`; but when the
next links continue forever without reaching `e_end` (e.g. a closed
ring that does not contain `e_end`) the constructor does NOT terminate
instead of failing fatally. -/
theorem quadlayer_ctor_spec (next : ℕ → Option ℕ) (eStart eEnd : ℕ) :
    (∀ (cs : List ℕ) (fuel : ℕ),
      walkChain next eEnd (eStart :: cs) = true →
      (eStart :: cs).length ≤ fuel →
      quadlayer_ctor_edges next eStart eEnd fuel =
        some (.edges (eStart :: (cs ++ [eEnd])))) ∧
    (∀ (cs : List ℕ) (fuel : ℕ),
      nullChain next eEnd (eStart :: cs) = true →
      (eStart :: cs).length ≤ fuel →
      quadlayer_ctor_edges next eStart eEnd fuel = some .fatal) ∧
    ((∀ k : ℕ, ∃ c : ℕ,
        chainFrom next eStart k = some c ∧ next c ≠ some eEnd) →
      ∀ fuel : ℕ, quadlayer_ctor_edges next eStart eEnd fuel = none) := by
  refine ⟨?_, ?_, ?_⟩
  · intro cs fuel hch hf
    have := ql_ctor_walk_of_walkChain next eEnd cs eStart fuel hch hf
    simp [quadlayer_ctor_edges, this]
  · intro cs fuel hch hf
    have := ql_ctor_walk_of_nullChain next eEnd cs eStart fuel hch hf
    simp [quadlayer_ctor_edges, this]
  · intro hdiv fuel
    have := ql_ctor_walk_nonterm next eEnd fuel eStart hdiv
    simp [quadlayer_ctor_edges, this]

/-- Concrete witness for `quadlayer_ctor_spec`: the chain
`0 → 1 → 2 → 3` with `e_end = 3` accumulates `[0, 1, 2, 3]`. -/
theorem quadlayer_ctor_spec_witness :
    (walkChain (fun c => if c < 3 then some (c + 1) else none) 3 [0, 1, 2] = true ∧
      ([0, 1, 2] : List ℕ).length ≤ 5) ∧
    quadlayer_ctor_edges (fun c => if c < 3 then some (c + 1) else none) 0 3 5 =
      some (.edges [0, 1, 2, 3]) :=
  ⟨⟨by decide, by decide⟩,
    (quadlayer_ctor_spec (fun c => if c < 3 then some (c + 1) else none) 0 3).1
      [1, 2] 5 (by decide) (by decide)⟩

/-- Termination of the constructor, as a proposition: some amount of
fuel makes the do-while exit (normally or via the `ASSERT`). -/
def ql_ctor_terminates (next : ℕ → Option ℕ) (eStart eEnd : ℕ) : Prop :=
  ∃ (fuel : ℕ) (r : CtorOut),
    quadlayer_ctor_edges next eStart eEnd fuel = some r

/-- C3 counterexample: on the two-edge cyclic front `0 → 1 → 0` with
`e_end = 5` not in the ring, the constructor neither terminates nor
fires the `ASSERT`: the claim that construction terminates on every
input, failing fatally when `e_end` is unreachable, is false. -/
theorem quadlayer_ctor_not_terminating :
    ¬ ql_ctor_terminates
        (fun c => if c = 0 then some 1 else if c = 1 then some 0 else none) 0 5 := by
  rintro ⟨fuel, r, hr⟩
  have hmod : ∀ k : ℕ,
      chainFrom (fun c => if c = 0 then some 1 else if c = 1 then some 0 else none)
        0 k = some (k % 2) := by
    intro k
    induction k with
    | zero => rfl
    | succ k ih =>
        rcases Nat.mod_two_eq_zero_or_one k with hk | hk
        · have hk1 : (k + 1) % 2 = 1 := by omega
          simp [chainFrom, ih, hk, hk1]
        · have hk1 : (k + 1) % 2 = 0 := by omega
          simp [chainFrom, ih, hk, hk1]
  have hdiv : ∀ k : ℕ, ∃ c : ℕ,
      chainFrom (fun c => if c = 0 then some 1 else if c = 1 then some 0 else none)
        0 k = some c ∧
      (fun c => if c = 0 then some 1 else if c = 1 then some 0 else none) c ≠
        some 5 := by
    intro k
    refine ⟨k % 2, hmod k, ?_⟩
    rcases Nat.mod_two_eq_zero_or_one k with hk | hk <;> simp [hk]
  have := ql_ctor_walk_nonterm
      (fun c => if c = 0 then some 1 else if c = 1 then some 0 else none)
      5 fuel 0 hdiv
  rw [quadlayer_ctor_edges, this] at hr
  cases hr

/-!
## QuadLayer projection state
   (QuadLayer.h: adjust_projected_vertex_coordinates, lines 184-218;
    setup_vertex_projection, lines 143-159;
    place_start_vertex, lines 224-340; place_end_vertex, lines 346-464)

The QuadLayer's parallel arrays are embedded as functions over the base
index, vertices as identifiers with a coordinate map `vxy`, and the
front / boundary edge lists as lists of edge records.  The geometric
primitives (`is_left`, `angle`, `sin`, `cos`, vector norms) and the
constant `CONSTANTS.quad_layer_angle()` live outside the three source
files; they are supplied as an oracle bundle `Geom`, which keeps every
definition computable.
-/

/-- Division of a vector by a scalar, `Vec2d::operator/`. -/
def vdiv (v : Vec2) (c : ℚ) : Vec2 := (v.1 / c, v.2 / c)

/-- Oracle bundle for the geometric primitives of `VecND.h` /
`Geometry.h` and the global constants object. -/
structure Geom where
  is_left : Vec2 → Vec2 → Vec2 → Bool
  angle : Vec2 → Vec2 → ℚ
  sin : ℚ → ℚ
  cos : ℚ → ℚ
  norm : Vec2 → ℚ
  quadLayerAngle : ℚ

/-- An edge record: endpoint vertex ids and the marker.  Edges of the
Front and of the mesh's boundary edge list. -/
structure MEdge where
  v1 : ℕ
  v2 : ℕ
  marker : ℤ
deriving DecidableEq

/-- Cached `Edge::length()`: by the Edge invariant it equals
`‖v2 - v1‖`. -/
def edge_length (g : Geom) (vxy : ℕ → Vec2) (e : MEdge) : ℚ :=
  g.norm (vsub (vxy e.v2) (vxy e.v1))

/-- The mutable state of a `QuadLayer` during
`setup_vertex_projection`, together with the collaborator state the
endpoint placement touches (front edges, boundary edges, the vertex
container's coordinates and its next fresh id). -/
structure QL where
  n : ℕ
  isClosed : Bool
  baseV1 : ℕ → ℕ
  baseV2 : ℕ → ℕ
  vxy : ℕ → Vec2
  normal : ℕ → Vec2
  heights : ℕ → ℚ
  proj1xy : ℕ → Vec2
  proj2xy : ℕ → Vec2
  proj1 : ℕ → Option ℕ
  proj2 : ℕ → Option ℕ
  front : List MEdge
  bdry : List MEdge
  eprv : MEdge
  enxt : MEdge
  freshV : ℕ

/-- Embedding of `QuadLayer::adjust_projected_vertex_coordinates(i, j)`. -/
def adjust_pvc (g : Geom) (st : QL) (i j : ℕ) : QL :=
  let p := st.vxy (st.baseV1 i)
  let q := st.vxy (st.baseV1 j)
  let r := st.vxy (st.baseV2 j)
  let alpha := g.angle (vsub p q) (vsub r q)
  if g.is_left p r q && decide (alpha ≤ g.quadLayerAngle) then
    st
  else
    let n1 := st.normal i
    let l1 := st.heights i
    let n2 := st.normal j
    let l2 := st.heights j
    let nrml := vsmul (1/2) (vadd n1 n2)
    let l := (1/2) * (l1 + l2)
    let nn := vdiv nrml (g.norm nrml)
    let xyProj := vadd q (vdiv (vsmul l nn) (g.sin ((1/2) * alpha)))
    { st with proj1xy := Function.update st.proj1xy j xyProj,
              proj2xy := Function.update st.proj2xy i xyProj }

/-- The wedge condition of `adjust_projected_vertex_coordinates`:
`is_left(p, r, q) && alpha <= CONSTANTS.quad_layer_angle()`. -/
def wedge_cond (g : Geom) (st : QL) (i j : ℕ) : Bool :=
  g.is_left (st.vxy (st.baseV1 i)) (st.vxy (st.baseV2 j)) (st.vxy (st.baseV1 j)) &&
    decide (g.angle (vsub (st.vxy (st.baseV1 i)) (st.vxy (st.baseV1 j)))
        (vsub (st.vxy (st.baseV2 j)) (st.vxy (st.baseV1 j))) ≤ g.quadLayerAngle)

/-- The merged projected coordinate `q + nn * l / sin(alpha/2)` of the
non-wedge branch. -/
def merged_proj (g : Geom) (st : QL) (i j : ℕ) : Vec2 :=
  let q := st.vxy (st.baseV1 j)
  let alpha := g.angle (vsub (st.vxy (st.baseV1 i)) q)
    (vsub (st.vxy (st.baseV2 j)) q)
  let nrml := vsmul (1/2) (vadd (st.normal i) (st.normal j))
  let l := (1/2) * (st.heights i + st.heights j)
  let nn := vdiv nrml (g.norm nrml)
  vadd q (vdiv (vsmul l nn) (g.sin ((1/2) * alpha)))

/-- First edge of `l` whose ordered endpoint pair is `(a, b)`:
`EdgeList::get_edge(v1, v2)` (modelled from the spec: EdgeList is not
part of the three source files; §4.C specifies an O(n) lookup by
ordered endpoint pair). -/
def get_edge_list (l : List MEdge) (a b : ℕ) : Option MEdge :=
  l.find? (fun e => decide (e.v1 = a) && decide (e.v2 = b))

/-- The element following the first occurrence of `e`
(`Edge::get_next_edge()` in list order; `none` when `e` is last or
absent). -/
def list_next : List MEdge → MEdge → Option MEdge
  | [], _ => none
  | x :: xs, t => if x = t then xs.head? else list_next xs t

/-- Remove the first occurrence of `e` (`EdgeList::remove`). -/
def remove_first : List MEdge → MEdge → List MEdge
  | [], _ => []
  | x :: xs, t => if x = t then xs else x :: remove_first xs t

/-- Insert the edges `new` before the first occurrence of `anchor`
(`EdgeList::insert_edge(pos, ...)` inserts before `pos`; modelled from
the spec, §4.C). -/
def insert_before : List MEdge → MEdge → List MEdge → List MEdge
  | [], _, _ => []
  | x :: xs, t, new => if x = t then new ++ x :: xs else x :: insert_before xs t new

/-- The boundary-edge bookkeeping of `place_start_vertex` /
`place_end_vertex`: look up the edge with ordered endpoints `(a, b)`;
when found, record its successor `tmp`, remove it, and insert the two
split halves before `tmp` (the `ASSERT(e_bdry_rem, "INVALID DATA
STRUCTURE")` on a null `tmp` is `none`). -/
def place_bdry_update (bdry : List MEdge) (a b : ℕ) (e1 e2 : MEdge) :
    Option (List MEdge) :=
  match get_edge_list bdry a b with
  | none => some bdry
  | some eb =>
      match list_next bdry eb with
      | none => none
      | some tmp => some (insert_before (remove_first bdry eb) tmp [e1, e2])

/-- Replace the first occurrence of `t` by the list `new` in place:
the effect of `EdgeList::split_edge` on the edge list (modelled from
the spec, §4.C: `e` is replaced by the two halves). -/
def replaceEdge : List MEdge → MEdge → List MEdge → List MEdge
  | [], _, _ => []
  | x :: xs, t, new => if x = t then new ++ xs else x :: replaceEdge xs t new

/-- Embedding of `QuadLayer::place_start_vertex`.  The leading
`ASSERT(e_prv && e_prv->v2() == v_start)` and the boundary-list
`ASSERT` are embedded as `none` (StructuralAssertion).  `split_edge`
(not part of the three source files) is modelled from the spec, §4.C:
`e_prv` is replaced in the Front by two halves sharing a new vertex at
parameter `sf` along `e_prv`, both inheriting `e_prv`'s marker; the
new vertex of the split is `new_edges.first->v2()`. -/
def place_start_vertex (g : Geom) (st : QL) : Option QL :=
  if st.eprv.v2 = st.baseV1 0 then
    if g.is_left (st.vxy (st.baseV1 0)) (st.vxy (st.baseV2 0))
        (st.vxy st.eprv.v1) then
      let h := st.heights 0
      let dFac := g.norm (vsub (st.vxy st.eprv.v1) (st.proj1xy 0)) / h
      if dFac < 1 then
        some { st with proj1 := Function.update st.proj1 0 (some st.eprv.v1) }
      else if h < edge_length g st.vxy st.eprv then
        let d1 := vsub (st.vxy st.eprv.v1) (st.vxy (st.baseV1 0))
        let d2 := vsub (st.proj1xy 0) (st.vxy (st.baseV1 0))
        let angFac := g.cos (g.angle d1 d2)
        let sf := (h * angFac) / edge_length g st.vxy st.eprv
        let nv := st.freshV
        let xyNew := vadd (st.vxy st.eprv.v1)
          (vsmul sf (vsub (st.vxy st.eprv.v2) (st.vxy st.eprv.v1)))
        let e1 : MEdge := ⟨st.eprv.v1, nv, st.eprv.marker⟩
        let e2 : MEdge := ⟨nv, st.eprv.v2, st.eprv.marker⟩
        (place_bdry_update st.bdry st.eprv.v1 st.eprv.v2 e1 e2).map (fun b =>
          { st with front := replaceEdge st.front st.eprv [e1, e2],
                    bdry := b,
                    vxy := Function.update st.vxy nv xyNew,
                    freshV := nv + 1,
                    proj1 := Function.update st.proj1 0 (some nv),
                    proj1xy := Function.update st.proj1xy 0 xyNew })
      else
        some { st with
          proj1 := Function.update st.proj1 0 (some st.eprv.v1),
          proj1xy := Function.update st.proj1xy 0 (st.vxy st.eprv.v1) }
    else
      some st
  else
    none

/-- Embedding of `QuadLayer::place_end_vertex`: the mirror image of
`place_start_vertex` over `e_end_->get_next_edge()`, acting on the
last entries (`.back()`, index `n - 1`) with split parameter
`1 - (h * cos alpha) / ‖e_nxt‖`. -/
def place_end_vertex (g : Geom) (st : QL) : Option QL :=
  let m := st.n - 1
  if st.enxt.v1 = st.baseV2 m then
    if g.is_left (st.vxy (st.baseV1 m)) (st.vxy (st.baseV2 m))
        (st.vxy st.enxt.v2) then
      let h := st.heights m
      let dFac := g.norm (vsub (st.vxy st.enxt.v2) (st.proj2xy m)) / h
      if dFac < 1 then
        some { st with proj2 := Function.update st.proj2 m (some st.enxt.v2) }
      else if h < edge_length g st.vxy st.enxt then
        let d1 := vsub (st.vxy st.enxt.v2) (st.vxy (st.baseV2 m))
        let d2 := vsub (st.proj2xy m) (st.vxy (st.baseV2 m))
        let angFac := g.cos (g.angle d1 d2)
        let sf := 1 - (h * angFac) / edge_length g st.vxy st.enxt
        let nv := st.freshV
        let xyNew := vadd (st.vxy st.enxt.v1)
          (vsmul sf (vsub (st.vxy st.enxt.v2) (st.vxy st.enxt.v1)))
        let e1 : MEdge := ⟨st.enxt.v1, nv, st.enxt.marker⟩
        let e2 : MEdge := ⟨nv, st.enxt.v2, st.enxt.marker⟩
        (place_bdry_update st.bdry st.enxt.v1 st.enxt.v2 e1 e2).map (fun b =>
          { st with front := replaceEdge st.front st.enxt [e1, e2],
                    bdry := b,
                    vxy := Function.update st.vxy nv xyNew,
                    freshV := nv + 1,
                    proj2 := Function.update st.proj2 m (some nv),
                    proj2xy := Function.update st.proj2xy m xyNew })
      else
        some { st with
          proj2 := Function.update st.proj2 m (some st.enxt.v2),
          proj2xy := Function.update st.proj2xy m (st.vxy st.enxt.v2) }
    else
      some st
  else
    none

/-- Embedding of `QuadLayer::setup_vertex_projection`: adjust every
interior joint `(i-1, i)` for `i = 1 .. n-1`; then for a closed layer
also the joint `(n-1, 0)`, and for an open layer the two endpoint
placements. -/
def setup_vertex_projection (g : Geom) (st : QL) : Option QL :=
  let st1 := (List.range' 1 (st.n - 1)).foldl
    (fun s i => adjust_pvc g s (i - 1) i) st
  if st.isClosed then
    some (adjust_pvc g st1 (st.n - 1) 0)
  else
    (place_start_vertex g st1).bind (fun s => place_end_vertex g s)

/-- `get_edge` finds the first ordered-pair match. -/
theorem get_edge_list_first (a b : ℕ) (pre post : List MEdge) (eb : MEdge)
    (hm1 : eb.v1 = a) (hm2 : eb.v2 = b)
    (hpre : ∀ e ∈ pre, ¬ (e.v1 = a ∧ e.v2 = b)) :
    get_edge_list (pre ++ eb :: post) a b = some eb := by
  induction pre with
  | nil =>
      simp [get_edge_list, List.find?, hm1, hm2]
  | cons x xs ih =>
      have hx : ¬ (x.v1 = a ∧ x.v2 = b) := hpre x (by simp)
      have hxs : ∀ e ∈ xs, ¬ (e.v1 = a ∧ e.v2 = b) := fun e he =>
        hpre e (by simp [he])
      have hcond : (decide (x.v1 = a) && decide (x.v2 = b)) = false := by
        rcases Decidable.em (x.v1 = a) with h1 | h1
        · rcases Decidable.em (x.v2 = b) with h2 | h2
          · exact absurd ⟨h1, h2⟩ hx
          · simp [h2]
        · simp [h1]
      simpa [get_edge_list, List.find?, hcond] using ih hxs

/-- `get_next_edge` of the first occurrence of `eb`. -/
theorem list_next_first (eb nxt : MEdge) (pre post : List MEdge)
    (hpre : eb ∉ pre) :
    list_next (pre ++ eb :: nxt :: post) eb = some nxt := by
  induction pre with
  | nil => simp [list_next]
  | cons x xs ih =>
      have hx : ¬ x = eb := by
        intro h
        exact hpre (by simp [h])
      have hxs : eb ∉ xs := fun h => hpre (by simp [h])
      simpa [list_next, hx] using ih hxs

/-- `remove` of the first occurrence of `eb`. -/
theorem remove_first_append (eb : MEdge) (pre post : List MEdge)
    (hpre : eb ∉ pre) :
    remove_first (pre ++ eb :: post) eb = pre ++ post := by
  induction pre with
  | nil => simp [remove_first]
  | cons x xs ih =>
      have hx : ¬ x = eb := by
        intro h
        exact hpre (by simp [h])
      have hxs : eb ∉ xs := fun h => hpre (by simp [h])
      simpa [remove_first, hx] using ih hxs

/-- `insert_edge` before the first occurrence of `t`. -/
theorem insert_before_append (t : MEdge) (pre post new : List MEdge)
    (hpre : t ∉ pre) :
    insert_before (pre ++ t :: post) t new = pre ++ (new ++ t :: post) := by
  induction pre with
  | nil => simp [insert_before]
  | cons x xs ih =>
      have hx : ¬ x = t := by
        intro h
        exact hpre (by simp [h])
      have hxs : t ∉ xs := fun h => hpre (by simp [h])
      simpa [insert_before, hx] using ih hxs

/-- The composite boundary bookkeeping replaces the matched boundary
edge, in its list position, by the two split halves. -/
theorem place_bdry_update_found (a b : ℕ) (e1 e2 eb nxt : MEdge)
    (pre post : List MEdge)
    (hm1 : eb.v1 = a) (hm2 : eb.v2 = b)
    (hpre : ∀ e ∈ pre, ¬ (e.v1 = a ∧ e.v2 = b))
    (hnxt : nxt ∉ pre) :
    place_bdry_update (pre ++ eb :: nxt :: post) a b e1 e2 =
      some (pre ++ e1 :: e2 :: nxt :: post) := by
  have hebpre : eb ∉ pre := by
    intro h
    exact hpre eb h ⟨hm1, hm2⟩
  have hfind := get_edge_list_first a b pre (nxt :: post) eb hm1 hm2 hpre
  have hnext := list_next_first eb nxt pre post hebpre
  have hrem := remove_first_append eb pre (nxt :: post) hebpre
  rw [place_bdry_update, hfind]
  dsimp only
  rw [hnext, hrem]
  dsimp only
  rw [insert_before_append nxt pre post [e1, e2] hnxt]
  rfl

/-- When no boundary edge matches, the boundary list is untouched. -/
theorem place_bdry_update_not_found (a b : ℕ) (e1 e2 : MEdge)
    (bdry : List MEdge) (h : get_edge_list bdry a b = none) :
    place_bdry_update bdry a b e1 e2 = some bdry := by
  rw [place_bdry_update, h]

/-- C10: in the endpoint merge case (`is_left` holds and `d_fac < 1`)
`place_start_vertex` assigns only the vertex pointer
`proj_v1_[0] = &v_prev` and returns: the coordinate `proj_v1_xy_[0]`
and every other field of the QuadLayer (and of the front, boundary
and vertex containers) are unchanged; `place_end_vertex` behaves
symmetrically on `proj_v2_.back()`. -/
theorem place_vertex_merge_frame (g : Geom) (st : QL)
    (hA1 : st.eprv.v2 = st.baseV1 0)
    (hL1 : g.is_left (st.vxy (st.baseV1 0)) (st.vxy (st.baseV2 0))
      (st.vxy st.eprv.v1) = true)
    (hD1 : g.norm (vsub (st.vxy st.eprv.v1) (st.proj1xy 0)) / st.heights 0 < 1)
    (hA2 : st.enxt.v1 = st.baseV2 (st.n - 1))
    (hL2 : g.is_left (st.vxy (st.baseV1 (st.n - 1))) (st.vxy (st.baseV2 (st.n - 1)))
      (st.vxy st.enxt.v2) = true)
    (hD2 : g.norm (vsub (st.vxy st.enxt.v2) (st.proj2xy (st.n - 1))) /
      st.heights (st.n - 1) < 1) :
    place_start_vertex g st =
      some { st with proj1 := Function.update st.proj1 0 (some st.eprv.v1) } ∧
    place_end_vertex g st =
      some { st with proj2 := Function.update st.proj2 (st.n - 1) (some st.enxt.v2) } := by
  constructor
  · simp [place_start_vertex, hA1, hL1, hD1]
  · simp [place_end_vertex, hA2, hL2, hD2]

/-- A concrete state exercising the endpoint merge case: one base edge
`0 → 1`, previous front edge `2 → 0`, next front edge `1 → 3`. -/
def mergeQL : QL :=
  { n := 1, isClosed := false,
    baseV1 := fun _ => 0, baseV2 := fun _ => 1,
    vxy := fun v => ((v : ℚ), 0),
    normal := fun _ => (0, 1), heights := fun _ => 1,
    proj1xy := fun _ => (5, 5), proj2xy := fun _ => (6, 6),
    proj1 := fun _ => none, proj2 := fun _ => none,
    front := [], bdry := [],
    eprv := ⟨2, 0, 7⟩, enxt := ⟨1, 3, 7⟩, freshV := 10 }

/-- Oracle whose `is_left` is always true and whose `norm` is zero:
both merge conditions hold at `mergeQL`. -/
def mergeGeom : Geom :=
  { is_left := fun _ _ _ => true, angle := fun _ _ => 0,
    sin := fun _ => 1, cos := fun _ => 1,
    norm := fun _ => 0, quadLayerAngle := 1 }

/-- Concrete witness for `place_vertex_merge_frame`; the extra last
conjunct records that the untouched coordinate `proj_v1_xy_[0]`
indeed differs from `v_prev`'s coordinates here. -/
theorem place_vertex_merge_frame_witness :
    (mergeQL.eprv.v2 = mergeQL.baseV1 0 ∧
     mergeGeom.norm (vsub (mergeQL.vxy mergeQL.eprv.v1) (mergeQL.proj1xy 0)) /
       mergeQL.heights 0 < 1) ∧
    place_start_vertex mergeGeom mergeQL =
      some { mergeQL with
        proj1 := Function.update mergeQL.proj1 0 (some mergeQL.eprv.v1) } ∧
    mergeQL.proj1xy 0 ≠ mergeQL.vxy mergeQL.eprv.v1 :=
  ⟨⟨by decide, by norm_num [mergeGeom, mergeQL]⟩,
    (place_vertex_merge_frame mergeGeom mergeQL (by decide)
      (by decide) (by norm_num [mergeGeom, mergeQL]) (by decide) (by decide)
      (by norm_num [mergeGeom, mergeQL])).1,
    by decide⟩

/-- The coordinate of the split vertex created by the start-side
split: parameter `s = (h0 * cos alpha) / ‖e_prv‖` measured from
`v_prev = e_prv.v1`. -/
def start_split_xy (g : Geom) (st : QL) : Vec2 :=
  vadd (st.vxy st.eprv.v1)
    (vsmul ((st.heights 0 * g.cos (g.angle
        (vsub (st.vxy st.eprv.v1) (st.vxy (st.baseV1 0)))
        (vsub (st.proj1xy 0) (st.vxy (st.baseV1 0))))) /
      edge_length g st.vxy st.eprv)
      (vsub (st.vxy st.eprv.v2) (st.vxy st.eprv.v1)))

/-- The coordinate of the split vertex created by the end-side split:
parameter `s = 1 - (h * cos alpha) / ‖e_nxt‖` measured from
`v_end = e_nxt.v1`. -/
def end_split_xy (g : Geom) (st : QL) : Vec2 :=
  vadd (st.vxy st.enxt.v1)
    (vsmul (1 - (st.heights (st.n - 1) * g.cos (g.angle
        (vsub (st.vxy st.enxt.v2) (st.vxy (st.baseV2 (st.n - 1))))
        (vsub (st.proj2xy (st.n - 1)) (st.vxy (st.baseV2 (st.n - 1)))))) /
      edge_length g st.vxy st.enxt)
      (vsub (st.vxy st.enxt.v2) (st.vxy st.enxt.v1)))

/-- C4: the complete three-way case split of the open-layer endpoint
handling.  Start side (`v_prev = e_start.prev.v1`): if `v_prev` is not
strictly left of the first base edge nothing changes; else with
`d_fac = ‖v_prev - proj_v1_xy[0]‖ / h0`, if `d_fac < 1` only
`proj_v1[0]` is set to `v_prev`; else if `h0 < ‖e_prv‖` the edge
`e_prv` is split at `s = (h0 cos alpha)/‖e_prv‖` from `v_prev`, a
matching boundary edge is removed and replaced in its list position by
the two halves carrying the halves' (= `e_prv`'s) marker, and
`proj_v1[0]` / `proj_v1_xy[0]` become the new split vertex; else
`proj_v1[0] = v_prev` and `proj_v1_xy[0] = v_prev.xy`.  The end side
mirrors this over `e_end.next` with `s = 1 - (h cos alpha)/‖e_nxt‖`. -/
theorem place_endpoint_vertices_spec (g : Geom) (st : QL)
    (hA1 : st.eprv.v2 = st.baseV1 0)
    (hA2 : st.enxt.v1 = st.baseV2 (st.n - 1)) :
    (g.is_left (st.vxy (st.baseV1 0)) (st.vxy (st.baseV2 0))
        (st.vxy st.eprv.v1) = false →
      place_start_vertex g st = some st) ∧
    (g.is_left (st.vxy (st.baseV1 0)) (st.vxy (st.baseV2 0))
        (st.vxy st.eprv.v1) = true →
      g.norm (vsub (st.vxy st.eprv.v1) (st.proj1xy 0)) / st.heights 0 < 1 →
      place_start_vertex g st =
        some { st with proj1 := Function.update st.proj1 0 (some st.eprv.v1) }) ∧
    (∀ pre post : List MEdge, ∀ eb nxt : MEdge,
      g.is_left (st.vxy (st.baseV1 0)) (st.vxy (st.baseV2 0))
        (st.vxy st.eprv.v1) = true →
      ¬ g.norm (vsub (st.vxy st.eprv.v1) (st.proj1xy 0)) / st.heights 0 < 1 →
      st.heights 0 < edge_length g st.vxy st.eprv →
      st.bdry = pre ++ eb :: nxt :: post →
      eb.v1 = st.eprv.v1 → eb.v2 = st.eprv.v2 →
      (∀ e ∈ pre, ¬ (e.v1 = st.eprv.v1 ∧ e.v2 = st.eprv.v2)) →
      nxt ∉ pre →
      place_start_vertex g st = some { st with
        front := replaceEdge st.front st.eprv
          [⟨st.eprv.v1, st.freshV, st.eprv.marker⟩,
           ⟨st.freshV, st.eprv.v2, st.eprv.marker⟩],
        bdry := pre ++ ⟨st.eprv.v1, st.freshV, st.eprv.marker⟩ ::
          ⟨st.freshV, st.eprv.v2, st.eprv.marker⟩ :: nxt :: post,
        vxy := Function.update st.vxy st.freshV (start_split_xy g st),
        freshV := st.freshV + 1,
        proj1 := Function.update st.proj1 0 (some st.freshV),
        proj1xy := Function.update st.proj1xy 0 (start_split_xy g st) }) ∧
    (g.is_left (st.vxy (st.baseV1 0)) (st.vxy (st.baseV2 0))
        (st.vxy st.eprv.v1) = true →
      ¬ g.norm (vsub (st.vxy st.eprv.v1) (st.proj1xy 0)) / st.heights 0 < 1 →
      st.heights 0 < edge_length g st.vxy st.eprv →
      get_edge_list st.bdry st.eprv.v1 st.eprv.v2 = none →
      place_start_vertex g st = some { st with
        front := replaceEdge st.front st.eprv
          [⟨st.eprv.v1, st.freshV, st.eprv.marker⟩,
           ⟨st.freshV, st.eprv.v2, st.eprv.marker⟩],
        vxy := Function.update st.vxy st.freshV (start_split_xy g st),
        freshV := st.freshV + 1,
        proj1 := Function.update st.proj1 0 (some st.freshV),
        proj1xy := Function.update st.proj1xy 0 (start_split_xy g st) }) ∧
    (g.is_left (st.vxy (st.baseV1 0)) (st.vxy (st.baseV2 0))
        (st.vxy st.eprv.v1) = true →
      ¬ g.norm (vsub (st.vxy st.eprv.v1) (st.proj1xy 0)) / st.heights 0 < 1 →
      ¬ st.heights 0 < edge_length g st.vxy st.eprv →
      place_start_vertex g st = some { st with
        proj1 := Function.update st.proj1 0 (some st.eprv.v1),
        proj1xy := Function.update st.proj1xy 0 (st.vxy st.eprv.v1) }) ∧
    (g.is_left (st.vxy (st.baseV1 (st.n - 1))) (st.vxy (st.baseV2 (st.n - 1)))
        (st.vxy st.enxt.v2) = false →
      place_end_vertex g st = some st) ∧
    (g.is_left (st.vxy (st.baseV1 (st.n - 1))) (st.vxy (st.baseV2 (st.n - 1)))
        (st.vxy st.enxt.v2) = true →
      g.norm (vsub (st.vxy st.enxt.v2) (st.proj2xy (st.n - 1))) /
        st.heights (st.n - 1) < 1 →
      place_end_vertex g st = some { st with
        proj2 := Function.update st.proj2 (st.n - 1) (some st.enxt.v2) }) ∧
    (∀ pre post : List MEdge, ∀ eb nxt : MEdge,
      g.is_left (st.vxy (st.baseV1 (st.n - 1))) (st.vxy (st.baseV2 (st.n - 1)))
        (st.vxy st.enxt.v2) = true →
      ¬ g.norm (vsub (st.vxy st.enxt.v2) (st.proj2xy (st.n - 1))) /
        st.heights (st.n - 1) < 1 →
      st.heights (st.n - 1) < edge_length g st.vxy st.enxt →
      st.bdry = pre ++ eb :: nxt :: post →
      eb.v1 = st.enxt.v1 → eb.v2 = st.enxt.v2 →
      (∀ e ∈ pre, ¬ (e.v1 = st.enxt.v1 ∧ e.v2 = st.enxt.v2)) →
      nxt ∉ pre →
      place_end_vertex g st = some { st with
        front := replaceEdge st.front st.enxt
          [⟨st.enxt.v1, st.freshV, st.enxt.marker⟩,
           ⟨st.freshV, st.enxt.v2, st.enxt.marker⟩],
        bdry := pre ++ ⟨st.enxt.v1, st.freshV, st.enxt.marker⟩ ::
          ⟨st.freshV, st.enxt.v2, st.enxt.marker⟩ :: nxt :: post,
        vxy := Function.update st.vxy st.freshV (end_split_xy g st),
        freshV := st.freshV + 1,
        proj2 := Function.update st.proj2 (st.n - 1) (some st.freshV),
        proj2xy := Function.update st.proj2xy (st.n - 1) (end_split_xy g st) }) ∧
    (g.is_left (st.vxy (st.baseV1 (st.n - 1))) (st.vxy (st.baseV2 (st.n - 1)))
        (st.vxy st.enxt.v2) = true →
      ¬ g.norm (vsub (st.vxy st.enxt.v2) (st.proj2xy (st.n - 1))) /
        st.heights (st.n - 1) < 1 →
      ¬ st.heights (st.n - 1) < edge_length g st.vxy st.enxt →
      place_end_vertex g st = some { st with
        proj2 := Function.update st.proj2 (st.n - 1) (some st.enxt.v2),
        proj2xy := Function.update st.proj2xy (st.n - 1) (st.vxy st.enxt.v2) }) := by
  refine ⟨?_, ?_, ?_, ?_, ?_, ?_, ?_, ?_, ?_⟩
  · intro hleft
    simp [place_start_vertex, hA1, hleft]
  · intro hleft hd
    simp [place_start_vertex, hA1, hleft, hd]
  · intro pre post eb nxt hleft hd hlen hbdry hm1 hm2 hpre hnxt
    have hb := place_bdry_update_found st.eprv.v1 st.eprv.v2
      ⟨st.eprv.v1, st.freshV, st.eprv.marker⟩
      ⟨st.freshV, st.eprv.v2, st.eprv.marker⟩ eb nxt pre post hm1 hm2 hpre hnxt
    rw [← hbdry] at hb
    simp only [hA1] at hb
    simp [place_start_vertex, hA1, hleft, hd, hlen, hb, start_split_xy]
  · intro hleft hd hlen hnone
    have hb := place_bdry_update_not_found st.eprv.v1 st.eprv.v2
      ⟨st.eprv.v1, st.freshV, st.eprv.marker⟩
      ⟨st.freshV, st.eprv.v2, st.eprv.marker⟩ st.bdry hnone
    simp only [hA1] at hb
    simp [place_start_vertex, hA1, hleft, hd, hlen, hb, start_split_xy]
  · intro hleft hd hlen
    simp [place_start_vertex, hA1, hleft, hd, hlen]
  · intro hleft
    simp [place_end_vertex, hA2, hleft]
  · intro hleft hd
    simp [place_end_vertex, hA2, hleft, hd]
  · intro pre post eb nxt hleft hd hlen hbdry hm1 hm2 hpre hnxt
    have hb := place_bdry_update_found st.enxt.v1 st.enxt.v2
      ⟨st.enxt.v1, st.freshV, st.enxt.marker⟩
      ⟨st.freshV, st.enxt.v2, st.enxt.marker⟩ eb nxt pre post hm1 hm2 hpre hnxt
    rw [← hbdry] at hb
    simp only [hA2] at hb
    simp [place_end_vertex, hA2, hleft, hd, hlen, hb, end_split_xy]
  · intro hleft hd hlen
    simp [place_end_vertex, hA2, hleft, hd, hlen]

/-- Concrete oracle for the split-branch witness: `is_left` always
true, `cos = 1`, and the squared-euclidean norm. -/
def splitGeom : Geom :=
  { is_left := fun _ _ _ => true, angle := fun _ _ => 0,
    sin := fun _ => 1, cos := fun _ => 1,
    norm := fun v => v.1 * v.1 + v.2 * v.2, quadLayerAngle := 1 }

/-- Concrete state for the split-branch witness: base edge `0 → 1`,
previous front edge `2 → 0` of length (norm) 4, layer height 1,
default projection `(0, 1)`, and a boundary list containing the mirror
`⟨2, 0⟩` of the previous edge with a successor. -/
def splitQL : QL :=
  { n := 1, isClosed := false,
    baseV1 := fun _ => 0, baseV2 := fun _ => 1,
    vxy := fun v => if v = 2 then (0, 2) else if v = 1 then (1, 0) else (0, 0),
    normal := fun _ => (0, 1), heights := fun _ => 1,
    proj1xy := fun _ => (0, 1), proj2xy := fun _ => (6, 6),
    proj1 := fun _ => none, proj2 := fun _ => none,
    front := [⟨2, 0, 7⟩, ⟨0, 1, 1⟩],
    bdry := [⟨5, 6, 1⟩, ⟨2, 0, 7⟩, ⟨0, 1, 1⟩],
    eprv := ⟨2, 0, 7⟩, enxt := ⟨1, 3, 7⟩, freshV := 10 }

/-- Concrete witness for `place_endpoint_vertices_spec`, exercising the
split branch: the boundary edge `⟨2, 0⟩` is replaced in place by the
two halves `⟨2, 10⟩`, `⟨10, 0⟩` carrying `e_prv`'s marker `7`, and
`proj_v1[0]` becomes the new split vertex `10`. -/
theorem place_endpoint_vertices_spec_witness :
    (splitQL.eprv.v2 = splitQL.baseV1 0 ∧
     splitGeom.is_left (splitQL.vxy (splitQL.baseV1 0)) (splitQL.vxy (splitQL.baseV2 0))
       (splitQL.vxy splitQL.eprv.v1) = true ∧
     ¬ splitGeom.norm (vsub (splitQL.vxy splitQL.eprv.v1) (splitQL.proj1xy 0)) /
       splitQL.heights 0 < 1 ∧
     splitQL.heights 0 < edge_length splitGeom splitQL.vxy splitQL.eprv ∧
     splitQL.bdry = [⟨5, 6, 1⟩] ++ (⟨2, 0, 7⟩ : MEdge) :: (⟨0, 1, 1⟩ : MEdge) :: []) ∧
    place_start_vertex splitGeom splitQL = some { splitQL with
      front := replaceEdge splitQL.front splitQL.eprv
        [⟨splitQL.eprv.v1, splitQL.freshV, splitQL.eprv.marker⟩,
         ⟨splitQL.freshV, splitQL.eprv.v2, splitQL.eprv.marker⟩],
      bdry := [⟨5, 6, 1⟩] ++ ⟨splitQL.eprv.v1, splitQL.freshV, splitQL.eprv.marker⟩ ::
        ⟨splitQL.freshV, splitQL.eprv.v2, splitQL.eprv.marker⟩ ::
        (⟨0, 1, 1⟩ : MEdge) :: [],
      vxy := Function.update splitQL.vxy splitQL.freshV (start_split_xy splitGeom splitQL),
      freshV := splitQL.freshV + 1,
      proj1 := Function.update splitQL.proj1 0 (some splitQL.freshV),
      proj1xy := Function.update splitQL.proj1xy 0 (start_split_xy splitGeom splitQL) } :=
  ⟨⟨by decide, by decide,
    by norm_num [splitGeom, splitQL, vsub],
    by norm_num [splitGeom, splitQL, vsub, edge_length], by decide⟩,
   (place_endpoint_vertices_spec splitGeom splitQL (by decide) (by decide)).2.2.1
     [⟨5, 6, 1⟩] [] ⟨2, 0, 7⟩ ⟨0, 1, 1⟩ (by decide)
     (by norm_num [splitGeom, splitQL, vsub])
     (by norm_num [splitGeom, splitQL, vsub, edge_length])
     (by decide) (by decide) (by decide) (by decide) (by decide)⟩

/-!
## Interior joint reconciliation (C2)
-/

/-- A joint `(i, j)` is reconciled: either the two projected
coordinates meeting at the joint coincide, or the joint satisfies the
wedge condition. -/
def jointOK (g : Geom) (st : QL) (i j : ℕ) : Prop :=
  st.proj2xy i = st.proj1xy j ∨ wedge_cond g st i j = true

/-- The wedge branch of `adjust_projected_vertex_coordinates` leaves
the state untouched. -/
theorem adjust_pvc_wedge (g : Geom) (st : QL) (i j : ℕ)
    (h : wedge_cond g st i j = true) :
    adjust_pvc g st i j = st := by
  simp only [wedge_cond, Bool.and_eq_true, decide_eq_true_eq] at h
  simp [adjust_pvc, h.1, h.2]

/-- The non-wedge branch assigns the single merged coordinate to both
`proj_v1_xy[j]` and `proj_v2_xy[i]` and changes nothing else. -/
theorem adjust_pvc_merged (g : Geom) (st : QL) (i j : ℕ)
    (h : wedge_cond g st i j = false) :
    adjust_pvc g st i j =
      { st with
        proj1xy := Function.update st.proj1xy j (merged_proj g st i j),
        proj2xy := Function.update st.proj2xy i (merged_proj g st i j) } := by
  simp only [wedge_cond, Bool.and_eq_false_iff] at h
  rcases h with h | h
  · simp [adjust_pvc, merged_proj, h]
  · have h' : ¬ (g.angle (vsub (st.vxy (st.baseV1 i)) (st.vxy (st.baseV1 j)))
        (vsub (st.vxy (st.baseV2 j)) (st.vxy (st.baseV1 j))) ≤ g.quadLayerAngle) := by
      simpa using h
    simp [adjust_pvc, merged_proj, h']

/-- `adjust_projected_vertex_coordinates` never changes the vertex
coordinates, base vertices, sizes, normals, heights, vertex pointers,
nor anything outside the two owned projection entries. -/
theorem adjust_pvc_frame (g : Geom) (st : QL) (i j : ℕ) :
    (adjust_pvc g st i j).n = st.n ∧
    (adjust_pvc g st i j).isClosed = st.isClosed ∧
    (adjust_pvc g st i j).baseV1 = st.baseV1 ∧
    (adjust_pvc g st i j).baseV2 = st.baseV2 ∧
    (adjust_pvc g st i j).vxy = st.vxy ∧
    (adjust_pvc g st i j).normal = st.normal ∧
    (adjust_pvc g st i j).heights = st.heights ∧
    (adjust_pvc g st i j).freshV = st.freshV ∧
    (∀ k : ℕ, k ≠ j → (adjust_pvc g st i j).proj1xy k = st.proj1xy k) ∧
    (∀ k : ℕ, k ≠ i → (adjust_pvc g st i j).proj2xy k = st.proj2xy k) := by
  cases h : wedge_cond g st i j
  · rw [adjust_pvc_merged g st i j h]
    refine ⟨rfl, rfl, rfl, rfl, rfl, rfl, rfl, rfl, ?_, ?_⟩
    · intro k hk
      simp [Function.update_noteq hk]
    · intro k hk
      simp [Function.update_noteq hk]
  · rw [adjust_pvc_wedge g st i j h]
    exact ⟨rfl, rfl, rfl, rfl, rfl, rfl, rfl, rfl, fun _ _ => rfl, fun _ _ => rfl⟩

/-- The wedge condition of any joint is invariant under any
`adjust_projected_vertex_coordinates` call. -/
theorem adjust_pvc_wedge_cond (g : Geom) (st : QL) (a b i j : ℕ) :
    wedge_cond g (adjust_pvc g st a b) i j = wedge_cond g st i j := by
  obtain ⟨_, _, h1, h2, h3, _⟩ := adjust_pvc_frame g st a b
  simp [wedge_cond, h1, h2, h3]

/-- Every call of `adjust_projected_vertex_coordinates` reconciles its
own joint. -/
theorem adjust_pvc_establishes (g : Geom) (st : QL) (i j : ℕ) :
    jointOK g (adjust_pvc g st i j) i j := by
  cases h : wedge_cond g st i j
  · left
    rw [adjust_pvc_merged g st i j h]
    simp
  · right
    rw [adjust_pvc_wedge g st i j h, h]

/-- A call of `adjust_projected_vertex_coordinates` on a different
joint preserves reconciliation. -/
theorem adjust_pvc_preserves (g : Geom) (st : QL) (a b i j : ℕ)
    (hai : a ≠ i) (hbj : b ≠ j) (h : jointOK g st i j) :
    jointOK g (adjust_pvc g st a b) i j := by
  obtain ⟨_, _, _, _, _, _, _, _, hp1, hp2⟩ := adjust_pvc_frame g st a b
  rcases h with h | h
  · left
    rw [hp1 j (fun hcontra => hbj hcontra.symm),
        hp2 i (fun hcontra => hai hcontra.symm)]
    exact h
  · right
    rw [adjust_pvc_wedge_cond]
    exact h

/-- The joint loop of `setup_vertex_projection` reconciles every
joint it has visited. -/
theorem setup_fold_joints (g : Geom) (st : QL) :
    ∀ m : ℕ, ∀ k : ℕ, 1 ≤ k → k ≤ m →
      jointOK g ((List.range' 1 m).foldl
        (fun s i => adjust_pvc g s (i - 1) i) st) (k - 1) k := by
  intro m
  induction m with
  | zero => intro k h1 h2; omega
  | succ m ih =>
      intro k h1 h2
      rw [List.range'_concat, List.foldl_append]
      simp only [List.foldl_cons, List.foldl_nil, one_mul]
      by_cases hk : k = m + 1
      · subst hk
        have ha : 1 + m - 1 = m + 1 - 1 := by omega
        have hb : 1 + m = m + 1 := by omega
        rw [ha, hb]
        exact adjust_pvc_establishes g _ (m + 1 - 1) (m + 1)
      · have hk' : k ≤ m := by omega
        apply adjust_pvc_preserves g _ (1 + m - 1) (1 + m) (k - 1) k
          (by omega) (by omega)
        exact ih k h1 hk'

/-- The joint loop never changes anything outside the projected
coordinate arrays. -/
theorem setup_fold_frame (g : Geom) (st : QL) (m : ℕ) :
    ((List.range' 1 m).foldl (fun s i => adjust_pvc g s (i - 1) i) st).n = st.n ∧
    ((List.range' 1 m).foldl (fun s i => adjust_pvc g s (i - 1) i) st).isClosed = st.isClosed ∧
    ((List.range' 1 m).foldl (fun s i => adjust_pvc g s (i - 1) i) st).baseV1 = st.baseV1 ∧
    ((List.range' 1 m).foldl (fun s i => adjust_pvc g s (i - 1) i) st).baseV2 = st.baseV2 ∧
    ((List.range' 1 m).foldl (fun s i => adjust_pvc g s (i - 1) i) st).vxy = st.vxy ∧
    ((List.range' 1 m).foldl (fun s i => adjust_pvc g s (i - 1) i) st).freshV = st.freshV := by
  induction m with
  | zero => exact ⟨rfl, rfl, rfl, rfl, rfl, rfl⟩
  | succ m ih =>
      rw [List.range'_concat, List.foldl_append]
      simp only [List.foldl_cons, List.foldl_nil, one_mul]
      obtain ⟨h1, h2, h3, h4, h5, h6⟩ := ih
      obtain ⟨f1, f2, f3, f4, f5, _, _, f8, _, _⟩ :=
        adjust_pvc_frame g ((List.range' 1 m).foldl
          (fun s i => adjust_pvc g s (i - 1) i) st) (1 + m - 1) (1 + m)
      exact ⟨f1.trans h1, f2.trans h2, f3.trans h3, f4.trans h4,
        f5.trans h5, f8.trans h6⟩

/-- Frame of `place_start_vertex`: when it succeeds, the base data is
unchanged, previously existing vertex coordinates are unchanged, the
second projection array is unchanged, and the first projection array
is changed at most at index 0. -/
theorem place_start_vertex_frame (g : Geom) (s s' : QL)
    (h : place_start_vertex g s = some s') :
    s'.n = s.n ∧ s'.baseV1 = s.baseV1 ∧ s'.baseV2 = s.baseV2 ∧
    (∀ v : ℕ, v < s.freshV → s'.vxy v = s.vxy v) ∧
    (∀ k : ℕ, k ≠ 0 → s'.proj1xy k = s.proj1xy k) ∧
    s'.proj2xy = s.proj2xy ∧ s.freshV ≤ s'.freshV := by
  by_cases hc1 : s.eprv.v2 = s.baseV1 0
  · by_cases hc2 : g.is_left (s.vxy (s.baseV1 0)) (s.vxy (s.baseV2 0))
        (s.vxy s.eprv.v1) = true
    · by_cases hc3 : g.norm (vsub (s.vxy s.eprv.v1) (s.proj1xy 0)) / s.heights 0 < 1
      · simp only [place_start_vertex, hc1, hc2, hc3, if_true, if_pos] at h
        cases h
        exact ⟨rfl, rfl, rfl, fun _ _ => rfl, fun _ _ => rfl, rfl, le_refl _⟩
      · by_cases hc4 : s.heights 0 < edge_length g s.vxy s.eprv
        · simp only [place_start_vertex, hc1, hc2, hc3, hc4, if_true, if_pos,
            if_neg, if_false] at h
          rw [Option.map_eq_some'] at h
          obtain ⟨b, _, hfb⟩ := h
          subst hfb
          refine ⟨rfl, rfl, rfl, ?_, ?_, rfl, by simp⟩
          · intro v hv
            exact Function.update_noteq (by omega) _ _
          · intro k hk
            exact Function.update_noteq hk _ _
        · simp only [place_start_vertex, hc1, hc2, hc3, hc4, if_true, if_pos,
            if_neg, if_false] at h
          cases h
          refine ⟨rfl, rfl, rfl, fun _ _ => rfl, ?_, rfl, le_refl _⟩
          intro k hk
          exact Function.update_noteq hk _ _
    · simp only [place_start_vertex, hc1, hc2, if_pos, if_neg, if_false] at h
      cases h
      exact ⟨rfl, rfl, rfl, fun _ _ => rfl, fun _ _ => rfl, rfl, le_refl _⟩
  · simp only [place_start_vertex, hc1, if_neg, if_false] at h
    cases h

/-- Frame of `place_end_vertex`: symmetric to
`place_start_vertex_frame`, with the first projection array untouched
and the second changed at most at index `n - 1`. -/
theorem place_end_vertex_frame (g : Geom) (s s' : QL)
    (h : place_end_vertex g s = some s') :
    s'.n = s.n ∧ s'.baseV1 = s.baseV1 ∧ s'.baseV2 = s.baseV2 ∧
    (∀ v : ℕ, v < s.freshV → s'.vxy v = s.vxy v) ∧
    s'.proj1xy = s.proj1xy ∧
    (∀ k : ℕ, k ≠ s.n - 1 → s'.proj2xy k = s.proj2xy k) ∧
    s.freshV ≤ s'.freshV := by
  by_cases hc1 : s.enxt.v1 = s.baseV2 (s.n - 1)
  · by_cases hc2 : g.is_left (s.vxy (s.baseV1 (s.n - 1))) (s.vxy (s.baseV2 (s.n - 1)))
        (s.vxy s.enxt.v2) = true
    · by_cases hc3 : g.norm (vsub (s.vxy s.enxt.v2) (s.proj2xy (s.n - 1))) /
          s.heights (s.n - 1) < 1
      · simp only [place_end_vertex, hc1, hc2, hc3, if_true, if_pos] at h
        cases h
        exact ⟨rfl, rfl, rfl, fun _ _ => rfl, rfl, fun _ _ => rfl, le_refl _⟩
      · by_cases hc4 : s.heights (s.n - 1) < edge_length g s.vxy s.enxt
        · simp only [place_end_vertex, hc1, hc2, hc3, hc4, if_true, if_pos,
            if_neg, if_false] at h
          rw [Option.map_eq_some'] at h
          obtain ⟨b, _, hfb⟩ := h
          subst hfb
          refine ⟨rfl, rfl, rfl, ?_, rfl, ?_, by simp⟩
          · intro v hv
            exact Function.update_noteq (by omega) _ _
          · intro k hk
            exact Function.update_noteq hk _ _
        · simp only [place_end_vertex, hc1, hc2, hc3, hc4, if_true, if_pos,
            if_neg, if_false] at h
          cases h
          refine ⟨rfl, rfl, rfl, fun _ _ => rfl, rfl, ?_, le_refl _⟩
          intro k hk
          exact Function.update_noteq hk _ _
    · simp only [place_end_vertex, hc1, hc2, if_pos, if_neg, if_false] at h
      cases h
      exact ⟨rfl, rfl, rfl, fun _ _ => rfl, rfl, fun _ _ => rfl, le_refl _⟩
  · simp only [place_end_vertex, hc1, if_neg, if_false] at h
    cases h

/-- Reconciliation of a joint survives any state change that keeps the
base data, the two owned projection entries and the (previously
existing) vertex coordinates. -/
theorem jointOK_of_frame (g : Geom) (s s' : QL) (i j : ℕ)
    (hb1 : s'.baseV1 = s.baseV1) (hb2 : s'.baseV2 = s.baseV2)
    (hv : ∀ v : ℕ, v < s.freshV → s'.vxy v = s.vxy v)
    (hf1 : s.baseV1 i < s.freshV) (hf2 : s.baseV1 j < s.freshV)
    (hf3 : s.baseV2 j < s.freshV)
    (hp1 : s'.proj1xy j = s.proj1xy j) (hp2 : s'.proj2xy i = s.proj2xy i)
    (h : jointOK g s i j) : jointOK g s' i j := by
  rcases h with h | h
  · left
    rw [hp1, hp2]
    exact h
  · right
    rw [wedge_cond, hb1, hb2, hv _ hf1, hv _ hf2, hv _ hf3]
    rw [wedge_cond] at h
    exact h
/-- C2: a joint keeps both construction-time projected coordinates
exactly when `is_left(p, r, q)` holds and `alpha` is at most
`QUAD_LAYER_ANGLE` (a wedge); otherwise both `proj_v1_xy[j]` and
`proj_v2_xy[i]` receive the single merged coordinate
`q + n * l / sin(alpha/2)`; consequently, after
`setup_vertex_projection`, every interior joint — and the pair
`(n-1, 0)` when the layer is closed — either shares one projected
coordinate or is a wedge. -/
theorem quadlayer_joint_reconciliation (g : Geom) (st : QL) :
    (∀ i j : ℕ, wedge_cond g st i j = true → adjust_pvc g st i j = st) ∧
    (∀ i j : ℕ, wedge_cond g st i j = false →
      adjust_pvc g st i j = { st with
        proj1xy := Function.update st.proj1xy j (merged_proj g st i j),
        proj2xy := Function.update st.proj2xy i (merged_proj g st i j) }) ∧
    (st.isClosed = true → ∀ st' : QL, setup_vertex_projection g st = some st' →
      (∀ k : ℕ, 1 ≤ k → k ≤ st.n - 1 → jointOK g st' (k - 1) k) ∧
      jointOK g st' (st.n - 1) 0) ∧
    (st.isClosed = false →
      (∀ k : ℕ, k < st.n → st.baseV1 k < st.freshV ∧ st.baseV2 k < st.freshV) →
      ∀ st' : QL, setup_vertex_projection g st = some st' →
      ∀ k : ℕ, 1 ≤ k → k ≤ st.n - 1 → jointOK g st' (k - 1) k) := by
  refine ⟨?_, ?_, ?_, ?_⟩
  · intro i j h
    exact adjust_pvc_wedge g st i j h
  · intro i j h
    exact adjust_pvc_merged g st i j h
  · intro hcl st' hs
    simp only [setup_vertex_projection, hcl, if_true] at hs
    cases hs
    constructor
    · intro k h1 h2
      apply adjust_pvc_preserves g _ (st.n - 1) 0 (k - 1) k (by omega) (by omega)
      exact setup_fold_joints g st (st.n - 1) k h1 h2
    · exact adjust_pvc_establishes g _ (st.n - 1) 0
  · intro hop hfresh st' hs
    simp only [setup_vertex_projection, hop, Bool.false_eq_true, if_false] at hs
    rw [Option.bind_eq_some] at hs
    obtain ⟨s2, h1, h2⟩ := hs
    obtain ⟨ff1, ff2, ff3, ff4, ff5, ff6⟩ := setup_fold_frame g st (st.n - 1)
    set st1 := (List.range' 1 (st.n - 1)).foldl
      (fun s i => adjust_pvc g s (i - 1) i) st with hst1
    obtain ⟨g1n, g1b1, g1b2, g1v, g1p1, g1p2, g1f⟩ :=
      place_start_vertex_frame g st1 s2 h1
    obtain ⟨g2n, g2b1, g2b2, g2v, g2p1, g2p2, g2f⟩ :=
      place_end_vertex_frame g s2 st' h2
    intro k hk1 hk2
    have hkn : k < st.n := by omega
    have hkn1 : k - 1 < st.n := by omega
    have hjoint := setup_fold_joints g st (st.n - 1) k hk1 hk2
    have hmid : jointOK g s2 (k - 1) k := by
      apply jointOK_of_frame g st1 s2 (k - 1) k g1b1 g1b2 g1v
      · rw [ff3, ff6]
        exact (hfresh (k - 1) hkn1).1
      · rw [ff3, ff6]
        exact (hfresh k hkn).1
      · rw [ff4, ff6]
        exact (hfresh k hkn).2
      · exact g1p1 k (by omega)
      · rw [g1p2]
      · exact hjoint
    apply jointOK_of_frame g s2 st' (k - 1) k g2b1 g2b2 g2v
    · rw [g1b1, ff3]
      calc st.baseV1 (k - 1) < st.freshV := (hfresh (k - 1) hkn1).1
        _ ≤ s2.freshV := by rw [← ff6]; exact g1f
    · rw [g1b1, ff3]
      calc st.baseV1 k < st.freshV := (hfresh k hkn).1
        _ ≤ s2.freshV := by rw [← ff6]; exact g1f
    · rw [g1b2, ff4]
      calc st.baseV2 k < st.freshV := (hfresh k hkn).2
        _ ≤ s2.freshV := by rw [← ff6]; exact g1f
    · rw [g2p1]
    · apply g2p2
      rw [g1n, ff1]
      omega
    · exact hmid

/-- Concrete witness for `quadlayer_joint_reconciliation`: at
`mergeGeom` (where `is_left` is constantly true and every angle is 0)
the joint `(0, 1)` of `mergeQL` is a wedge, and the adjustment call
indeed leaves the state untouched. -/
theorem quadlayer_joint_reconciliation_witness :
    wedge_cond mergeGeom mergeQL 0 1 = true ∧
    adjust_pvc mergeGeom mergeQL 0 1 = mergeQL :=
  ⟨by decide, (quadlayer_joint_reconciliation mergeGeom mergeQL).1 0 1 (by decide)⟩

/-!
## Front refinement  (Front.h: refine_front_edges, lines 148-175;
   get_edges_to_refine, lines 272-283; refine_edge, lines 289-315;
   create_sub_edges, lines 424-450)

Front edges are embedded as records carrying an object identity
(`eid`, `some k` for the pre-existing edge objects, `none` for edges
newly created by refinement), endpoint coordinates, the marker and the
twin reference.  `create_sub_vertex_coords` (the predictor-corrector
point generator, whose loop runs on the size-function oracle) is
passed in as a parameter `subCoords`; the claims quantify over its
output ("at least 3 points" / "fewer than 3 points"), so only the
branching of `refine_edge` and the list surgery of
`refine_front_edges` matter here.
-/

/-- A Front edge record. -/
structure REdge where
  eid : Option ℕ
  v1xy : Vec2
  v2xy : Vec2
  marker : ℤ
  twin : Option ℕ
deriving DecidableEq

/-- The interior points `xy_new[1 .. size-2]` of a sub-vertex array. -/
def interior_points (xys : List Vec2) : List Vec2 :=
  (xys.drop 1).dropLast

/-- Edges between consecutive points, all carrying marker `m`, null
twin, and no pre-existing identity. -/
def consec_edges (m : ℤ) : List Vec2 → List REdge
  | [] => []
  | [_] => []
  | a :: b :: rest => ⟨none, a, b, m, none⟩ :: consec_edges m (b :: rest)

/-- Embedding of `Front::create_sub_edges`: the chain runs from
`e.v1` through the interior points to `e.v2`, every new edge
inheriting `e.marker()`. -/
def create_sub_edges (e : REdge) (xys : List Vec2) : List REdge :=
  consec_edges e.marker (e.v1xy :: (interior_points xys ++ [e.v2xy]))

/-- Embedding of `Front::get_edges_to_refine`: push every edge whose
twin is null. -/
def get_edges_to_refine (edges : List REdge) : List REdge :=
  edges.foldl (fun acc e => if e.twin = none then acc ++ [e] else acc) []

/-- Insert `new` before the first occurrence of `t`
(`EdgeList::insert_edge(e.pos(), ...)`). -/
def rinsert_before : List REdge → REdge → List REdge → List REdge
  | [], _, _ => []
  | x :: xs, t, new => if x = t then new ++ x :: xs else x :: rinsert_before xs t new

/-- Remove the first occurrence of `t` (`edges_.remove`). -/
def rremove_first : List REdge → REdge → List REdge
  | [], _ => []
  | x :: xs, t => if x = t then xs else x :: rremove_first xs t

/-- Embedding of `Front::refine_front_edges`: collect the refinable
edges, then for each one either leave it alone (fewer than 3
sub-vertex coordinates) or insert its chain before it and mark it for
removal; the marked originals are removed only after the loop. -/
def refine_front_edges (subCoords : REdge → List Vec2)
    (edges : List REdge) : List REdge :=
  let toRefine := get_edges_to_refine edges
  let res := toRefine.foldl
    (fun (acc : List REdge × List REdge) e =>
      if (subCoords e).length < 3 then acc
      else (rinsert_before acc.1 e (create_sub_edges e (subCoords e)),
            acc.2 ++ [e]))
    (edges, [])
  res.2.foldl (fun cur e => rremove_first cur e) res.1

/-- `get_edges_to_refine` computes exactly the null-twin filter. -/
theorem get_edges_to_refine_eq_filter (edges : List REdge) :
    get_edges_to_refine edges =
      edges.filter (fun e => decide (e.twin = none)) := by
  have haux : ∀ (l : List REdge) (acc : List REdge),
      l.foldl (fun acc e => if e.twin = none then acc ++ [e] else acc) acc =
        acc ++ l.filter (fun e => decide (e.twin = none)) := by
    intro l
    induction l with
    | nil => intro acc; simp
    | cons x xs ih =>
        intro acc
        by_cases hx : x.twin = none
        · simp [List.filter_cons, hx, ih]
        · simp [List.filter_cons, hx, ih]
  simpa [get_edges_to_refine] using haux edges []

theorem rinsert_before_cons_ne (x t : REdge) (l new : List REdge)
    (h : x ≠ t) :
    rinsert_before (x :: l) t new = x :: rinsert_before l t new := by
  simp [rinsert_before, h]

theorem rremove_first_cons_ne (x t : REdge) (l : List REdge) (h : x ≠ t) :
    rremove_first (x :: l) t = x :: rremove_first l t := by
  simp [rremove_first, h]

theorem rinsert_before_append_notmem (t : REdge) (pre l new : List REdge)
    (h : t ∉ pre) :
    rinsert_before (pre ++ l) t new = pre ++ rinsert_before l t new := by
  induction pre with
  | nil => rfl
  | cons x xs ih =>
      have hx : x ≠ t := by
        intro hcontra
        exact h (by simp [hcontra])
      have hxs : t ∉ xs := fun hm => h (by simp [hm])
      simp only [List.cons_append]
      rw [rinsert_before_cons_ne x t (xs ++ l) new hx, ih hxs]

theorem rremove_first_append_notmem (t : REdge) (pre l : List REdge)
    (h : t ∉ pre) :
    rremove_first (pre ++ l) t = pre ++ rremove_first l t := by
  induction pre with
  | nil => rfl
  | cons x xs ih =>
      have hx : x ≠ t := by
        intro hcontra
        exact h (by simp [hcontra])
      have hxs : t ∉ xs := fun hm => h (by simp [hm])
      simp only [List.cons_append]
      rw [rremove_first_cons_ne x t (xs ++ l) hx, ih hxs]

/-- Every chain edge carries the original marker, a null twin and no
pre-existing identity. -/
theorem create_sub_edges_fields (e : REdge) (xys : List Vec2) :
    ∀ c ∈ create_sub_edges e xys,
      c.marker = e.marker ∧ c.twin = none ∧ c.eid = none := by
  have haux : ∀ (m : ℤ) (pts : List Vec2), ∀ c ∈ consec_edges m pts,
      c.marker = m ∧ c.twin = none ∧ c.eid = none := by
    intro m pts
    induction pts with
    | nil => intro c hc; cases hc
    | cons a rest ih =>
        intro c hc
        match rest, hc with
        | [], hc => cases hc
        | b :: rest, hc =>
            rcases List.mem_cons.mp hc with hh | ht
            · subst hh
              exact ⟨rfl, rfl, rfl⟩
            · exact ih c ht
  intro c hc
  exact haux e.marker _ c hc
/-- The insertion phase of `refine_front_edges`, folded over the
refinable edges. -/
def apply_inserts (subCoords : REdge → List Vec2) (ops : List REdge)
    (cur : List REdge) : List REdge :=
  ops.foldl (fun c e =>
    if (subCoords e).length < 3 then c
    else rinsert_before c e (create_sub_edges e (subCoords e))) cur

/-- The (deferred) removal phase of `refine_front_edges`. -/
def remove_all (rem : List REdge) (cur : List REdge) : List REdge :=
  rem.foldl (fun c e => rremove_first c e) cur

/-- The two-phase loop of `refine_front_edges` splits into the
insertion fold and the removal fold over the successfully refined
edges. -/
theorem refine_front_edges_phases (subCoords : REdge → List Vec2)
    (edges : List REdge) :
    refine_front_edges subCoords edges =
      remove_all ((get_edges_to_refine edges).filter
          (fun e => decide (¬ (subCoords e).length < 3)))
        (apply_inserts subCoords (get_edges_to_refine edges) edges) := by
  have haux : ∀ (ops cur : List REdge) (rem : List REdge),
      ops.foldl (fun (acc : List REdge × List REdge) e =>
        if (subCoords e).length < 3 then acc
        else (rinsert_before acc.1 e (create_sub_edges e (subCoords e)),
              acc.2 ++ [e])) (cur, rem) =
      (apply_inserts subCoords ops cur,
        rem ++ ops.filter (fun e => decide (¬ (subCoords e).length < 3))) := by
    intro ops
    induction ops with
    | nil => intro cur rem; simp [apply_inserts]
    | cons x xs ih =>
        intro cur rem
        by_cases hx : (subCoords x).length < 3
        · simp only [List.foldl_cons, if_pos hx]
          rw [ih cur rem]
          simp [apply_inserts, List.filter_cons, hx]
        · simp only [List.foldl_cons, if_neg hx]
          rw [ih _ (rem ++ [x])]
          simp only [apply_inserts, List.filter_cons, hx, decide_not]
          simp [hx]
  rw [refine_front_edges, haux]
  simp [remove_all]

theorem apply_inserts_cons_keep (subCoords : REdge → List Vec2)
    (ops : List REdge) (x : REdge) (cur : List REdge) (h : x ∉ ops) :
    apply_inserts subCoords ops (x :: cur) =
      x :: apply_inserts subCoords ops cur := by
  induction ops generalizing cur with
  | nil => rfl
  | cons t ts ih =>
      have ht : x ≠ t := by
        intro hc
        exact h (by simp [hc])
      have hts : x ∉ ts := fun hm => h (by simp [hm])
      by_cases hsmall : (subCoords t).length < 3
      · simp only [apply_inserts, List.foldl_cons, if_pos hsmall]
        exact ih cur hts
      · simp only [apply_inserts, List.foldl_cons, if_neg hsmall]
        rw [rinsert_before_cons_ne x t cur _ ht]
        exact ih _ hts

theorem apply_inserts_append_left (subCoords : REdge → List Vec2)
    (ops : List REdge) (pre cur : List REdge)
    (h : ∀ t ∈ ops, t ∉ pre) :
    apply_inserts subCoords ops (pre ++ cur) =
      pre ++ apply_inserts subCoords ops cur := by
  induction ops generalizing cur with
  | nil => rfl
  | cons t ts ih =>
      have ht : t ∉ pre := h t (by simp)
      have hts : ∀ u ∈ ts, u ∉ pre := fun u hu => h u (by simp [hu])
      by_cases hsmall : (subCoords t).length < 3
      · simp only [apply_inserts, List.foldl_cons, if_pos hsmall]
        exact ih cur hts
      · simp only [apply_inserts, List.foldl_cons, if_neg hsmall]
        rw [rinsert_before_append_notmem t pre cur _ ht]
        exact ih _ hts

theorem remove_all_cons_keep (rem : List REdge) (x : REdge)
    (cur : List REdge) (h : x ∉ rem) :
    remove_all rem (x :: cur) = x :: remove_all rem cur := by
  induction rem generalizing cur with
  | nil => rfl
  | cons t ts ih =>
      have ht : x ≠ t := by
        intro hc
        exact h (by simp [hc])
      have hts : x ∉ ts := fun hm => h (by simp [hm])
      show remove_all ts (rremove_first (x :: cur) t) =
        x :: remove_all ts (rremove_first cur t)
      rw [rremove_first_cons_ne x t cur ht]
      exact ih _ hts

theorem remove_all_append_left (rem : List REdge) (pre cur : List REdge)
    (h : ∀ t ∈ rem, t ∉ pre) :
    remove_all rem (pre ++ cur) = pre ++ remove_all rem cur := by
  induction rem generalizing cur with
  | nil => rfl
  | cons t ts ih =>
      have ht : t ∉ pre := h t (by simp)
      have hts : ∀ u ∈ ts, u ∉ pre := fun u hu => h u (by simp [hu])
      show remove_all ts (rremove_first (pre ++ cur) t) =
        pre ++ remove_all ts (rremove_first cur t)
      rw [rremove_first_append_notmem t pre cur ht]
      exact ih _ hts

/-- Core characterisation: `refine_front_edges` acts as an in-place
replacement on the edge list — each refinable edge with at least 3
sub-vertex coordinates is replaced, in its list position, by its chain
of new edges; every other edge stays. -/
theorem refine_front_edges_eq_bind (subCoords : REdge → List Vec2)
    (edges : List REdge) (hnodup : edges.Nodup)
    (hids : ∀ e ∈ edges, e.eid ≠ none) :
    refine_front_edges subCoords edges =
      edges.flatMap (fun e =>
        if e.twin = none ∧ 3 ≤ (subCoords e).length then
          create_sub_edges e (subCoords e)
        else [e]) := by
  rw [refine_front_edges_phases, get_edges_to_refine_eq_filter]
  induction edges with
  | nil => rfl
  | cons x rest ih =>
      have hxrest : x ∉ rest := (List.nodup_cons.mp hnodup).1
      have hnodup' : rest.Nodup := (List.nodup_cons.mp hnodup).2
      have hids' : ∀ e ∈ rest, e.eid ≠ none := fun e he => hids e (by simp [he])
      have hsub1 : ∀ t ∈ rest.filter (fun e => decide (e.twin = none)), t ∈ rest :=
        fun t ht => List.mem_of_mem_filter ht
      have hsub2 : ∀ t ∈ (rest.filter (fun e => decide (e.twin = none))).filter
          (fun e => decide (¬ (subCoords e).length < 3)), t ∈ rest :=
        fun t ht => List.mem_of_mem_filter (List.mem_of_mem_filter ht)
      by_cases htwin : x.twin = none
      · by_cases hsmall : (subCoords x).length < 3
        · rw [List.filter_cons_of_pos (by simp [htwin])]
          rw [List.filter_cons_of_neg (by simp [hsmall])]
          have hstep : apply_inserts subCoords
              (x :: rest.filter (fun e => decide (e.twin = none))) (x :: rest) =
              apply_inserts subCoords
                (rest.filter (fun e => decide (e.twin = none))) (x :: rest) := by
            simp only [apply_inserts, List.foldl_cons, if_pos hsmall]
          rw [hstep]
          rw [apply_inserts_cons_keep subCoords _ x rest
            (fun hm => hxrest (hsub1 x hm))]
          rw [remove_all_cons_keep _ x _ (fun hm => hxrest (hsub2 x hm))]
          rw [List.flatMap_cons]
          have hcond : ¬ (x.twin = none ∧ 3 ≤ (subCoords x).length) := by
            intro hc
            omega
          rw [if_neg hcond]
          simp only [List.singleton_append]
          congr 1
          exact ih hnodup' hids'
        · rw [List.filter_cons_of_pos (by simp [htwin])]
          rw [List.filter_cons_of_pos (by simp [hsmall])]
          have hchain : ∀ c ∈ create_sub_edges x (subCoords x), c.eid = none :=
            fun c hc => (create_sub_edges_fields x (subCoords x) c hc).2.2
          have hchain_not : ∀ t ∈ rest, t ∉ create_sub_edges x (subCoords x) := by
            intro t ht hmem
            exact (hids' t ht) (hchain t hmem)
          have hstep : apply_inserts subCoords
              (x :: rest.filter (fun e => decide (e.twin = none))) (x :: rest) =
              apply_inserts subCoords
                (rest.filter (fun e => decide (e.twin = none)))
                (create_sub_edges x (subCoords x) ++ x :: rest) := by
            simp only [apply_inserts, List.foldl_cons, if_neg hsmall]
            congr 1
            simp [rinsert_before]
          rw [hstep]
          rw [apply_inserts_append_left subCoords _ _ _
            (fun t htm => hchain_not t (hsub1 t htm))]
          rw [apply_inserts_cons_keep subCoords _ x rest
            (fun hm => hxrest (hsub1 x hm))]
          have hremstep : remove_all
              (x :: (rest.filter (fun e => decide (e.twin = none))).filter
                (fun e => decide (¬ (subCoords e).length < 3)))
              (create_sub_edges x (subCoords x) ++ x ::
                apply_inserts subCoords
                  (rest.filter (fun e => decide (e.twin = none))) rest) =
              remove_all
                ((rest.filter (fun e => decide (e.twin = none))).filter
                  (fun e => decide (¬ (subCoords e).length < 3)))
                (create_sub_edges x (subCoords x) ++
                  apply_inserts subCoords
                    (rest.filter (fun e => decide (e.twin = none))) rest) := by
            simp only [remove_all, List.foldl_cons]
            congr 1
            rw [rremove_first_append_notmem x _ _
              (fun hm => (hids x (by simp)) (hchain x hm))]
            simp [rremove_first]
          rw [hremstep]
          rw [remove_all_append_left _ _ _
            (fun t htm => hchain_not t (hsub2 t htm))]
          rw [List.flatMap_cons]
          have hcond : x.twin = none ∧ 3 ≤ (subCoords x).length :=
            ⟨htwin, by omega⟩
          rw [if_pos hcond]
          congr 1
          exact ih hnodup' hids'
      · rw [List.filter_cons_of_neg (by simp [htwin])]
        rw [apply_inserts_cons_keep subCoords _ x rest
          (fun hm => hxrest (hsub1 x hm))]
        rw [remove_all_cons_keep _ x _ (fun hm => hxrest (hsub2 x hm))]
        rw [List.flatMap_cons]
        have hcond : ¬ (x.twin = none ∧ 3 ≤ (subCoords x).length) := by
          intro hc
          exact htwin hc.1
        rw [if_neg hcond]
        simp only [List.singleton_append]
        congr 1
        exact ih hnodup' hids'
/-- C5: for every Front edge selected for refinement, refinement
either produces at least 3 sub-vertex coordinates and replaces the
edge, in its list position, by a chain of new edges over the interior
points inheriting the original edge's marker (the original edge being
removed only after the loop — see the two-phase structure of
`refine_front_edges`), or — with fewer than 3 points — leaves that
edge entirely unrefined; refinement continues with the remaining edges
in either case. -/
theorem refine_edge_spec (subCoords : REdge → List Vec2)
    (edges : List REdge) (hnodup : edges.Nodup)
    (hids : ∀ e ∈ edges, e.eid ≠ none) :
    refine_front_edges subCoords edges =
      edges.flatMap (fun e =>
        if e.twin = none ∧ 3 ≤ (subCoords e).length then
          create_sub_edges e (subCoords e)
        else [e]) ∧
    (∀ e ∈ edges, (subCoords e).length < 3 →
      e ∈ refine_front_edges subCoords edges) ∧
    (∀ e : REdge, ∀ c ∈ create_sub_edges e (subCoords e),
      c.marker = e.marker ∧ c.twin = none) := by
  refine ⟨refine_front_edges_eq_bind subCoords edges hnodup hids, ?_, ?_⟩
  · intro e he hsmall
    rw [refine_front_edges_eq_bind subCoords edges hnodup hids]
    refine List.mem_flatMap.mpr ⟨e, he, ?_⟩
    rw [if_neg (fun hc => by omega)]
    simp
  · intro e c hc
    exact ⟨(create_sub_edges_fields e (subCoords e) c hc).1,
      (create_sub_edges_fields e (subCoords e) c hc).2.1⟩

/-- The edges of the C5/C6 witnesses: edge `0` is refinable with a
4-point sub-vertex array, edge `1` carries a twin, edge `2` is
refinable but produces a single point. -/
def refEdges : List REdge :=
  [⟨some 0, (0, 0), (3, 0), 5, none⟩,
   ⟨some 1, (3, 0), (4, 0), 6, some 2⟩,
   ⟨some 2, (4, 0), (5, 0), 7, none⟩]

/-- The sub-vertex coordinate oracle of the C5/C6 witnesses. -/
def refCoords : REdge → List Vec2 :=
  fun e => if e.eid = some 0 then [(0, 0), (1, 0), (2, 0), (3, 0)] else [(4, 0)]

/-- Concrete witness for `refine_edge_spec`: edge `0` is replaced in
place by three chain edges with marker 5; the twin edge and the
too-short edge survive unrefined. -/
theorem refine_edge_spec_witness :
    (refEdges.Nodup ∧ (∀ e ∈ refEdges, e.eid ≠ none)) ∧
    refine_front_edges refCoords refEdges =
      refEdges.flatMap (fun e =>
        if e.twin = none ∧ 3 ≤ (refCoords e).length then
          create_sub_edges e (refCoords e)
        else [e]) ∧
    refine_front_edges refCoords refEdges =
      [⟨none, (0, 0), (1, 0), 5, none⟩, ⟨none, (1, 0), (2, 0), 5, none⟩,
       ⟨none, (2, 0), (3, 0), 5, none⟩,
       ⟨some 1, (3, 0), (4, 0), 6, some 2⟩,
       ⟨some 2, (4, 0), (5, 0), 7, none⟩] :=
  ⟨⟨by decide, by decide⟩,
   (refine_edge_spec refCoords refEdges (by decide) (by decide)).1,
   by decide⟩

/-- C6: refinement considers exactly the Front edges whose twin
reference is null, and after the refinement pass every edge with a
non-null twin is still present, unsplit, in the Front. -/
theorem refine_twin_edges_untouched (subCoords : REdge → List Vec2)
    (edges : List REdge) (hnodup : edges.Nodup)
    (hids : ∀ e ∈ edges, e.eid ≠ none) :
    get_edges_to_refine edges =
      edges.filter (fun e => decide (e.twin = none)) ∧
    (∀ e ∈ edges, e.twin ≠ none →
      e ∈ refine_front_edges subCoords edges) := by
  refine ⟨get_edges_to_refine_eq_filter edges, ?_⟩
  intro e he htwin
  rw [refine_front_edges_eq_bind subCoords edges hnodup hids]
  refine List.mem_flatMap.mpr ⟨e, he, ?_⟩
  rw [if_neg (fun hc => htwin hc.1)]
  simp

/-- Concrete witness for `refine_twin_edges_untouched`: the twin edge
of `refEdges` survives refinement. -/
theorem refine_twin_edges_untouched_witness :
    (refEdges.Nodup ∧ (∀ e ∈ refEdges, e.eid ≠ none) ∧
      (⟨some 1, (3, 0), (4, 0), 6, some 2⟩ : REdge) ∈ refEdges ∧
      (⟨some 1, (3, 0), (4, 0), 6, some 2⟩ : REdge).twin ≠ none) ∧
    get_edges_to_refine refEdges =
      refEdges.filter (fun e => decide (e.twin = none)) ∧
    (⟨some 1, (3, 0), (4, 0), 6, some 2⟩ : REdge) ∈
      refine_front_edges refCoords refEdges :=
  ⟨⟨by decide, by decide, by decide, by decide⟩,
   (refine_twin_edges_untouched refCoords refEdges (by decide) (by decide)).1,
   (refine_twin_edges_untouched refCoords refEdges (by decide) (by decide)).2
     ⟨some 1, (3, 0), (4, 0), 6, some 2⟩ (by decide) (by decide)⟩

end TQMesh
